import Mathlib

/-!
Verification of the bl2wealth save-file editor core (`borderlands/savefile.py`)
against its natural-language specification.

Byte strings are modelled as `List Nat` with every element below 256.
Python arbitrary-precision integers are modelled as `Nat` (or `Int` where a
Python value can be negative).  Fallible code (Python exceptions) is modelled
with `Option`/`Except`.  Library modules of the repository that are not part
of the sources at hand (LZO, Huffman, SHA-1, CRC32, the challenge codec and
the small byte utilities) are modelled from the specification; each such
definition carries a doc comment saying so.
-/

set_option maxRecDepth 8000

/-! ### Little-endian byte / number helpers -/

/-- Value of a byte list read little-endian (byte 0 least significant). -/
def leVal : List Nat → Nat
  | [] => 0
  | b :: rest => b + 256 * leVal rest

/-- `n` encoded as `len` little-endian bytes (truncating at `2 ^ (8 * len)`). -/
def leBytes (n len : Nat) : List Nat :=
  match len with
  | 0 => []
  | len + 1 => (n % 256) :: leBytes (n / 256) len

theorem leVal_nil : leVal [] = 0 := rfl

theorem leVal_cons (b : Nat) (l : List Nat) : leVal (b :: l) = b + 256 * leVal l := rfl

theorem length_leBytes (n len : Nat) : (leBytes n len).length = len := by
  induction len generalizing n with
  | zero => rfl
  | succ k ih => simp [leBytes, ih]

theorem leBytes_lt (n len : Nat) : ∀ b ∈ leBytes n len, b < 256 := by
  induction len generalizing n with
  | zero => simp [leBytes]
  | succ k ih =>
    intro b hb
    simp only [leBytes, List.mem_cons] at hb
    rcases hb with h | h
    · subst h; exact Nat.mod_lt _ (by norm_num)
    · exact ih _ b h

theorem leVal_leBytes (n len : Nat) : leVal (leBytes n len) = n % 2 ^ (8 * len) := by
  induction len generalizing n with
  | zero => simp [leBytes, leVal, Nat.mod_one]
  | succ k ih =>
    have h256 : (2 : Nat) ^ (8 * (k + 1)) = 256 * 2 ^ (8 * k) := by
      rw [Nat.mul_succ, pow_add]; ring
    simp only [leBytes, leVal_cons, ih, h256]
    rw [Nat.mod_mul]

theorem leVal_lt (l : List Nat) (h : ∀ b ∈ l, b < 256) : leVal l < 2 ^ (8 * l.length) := by
  induction l with
  | nil => simp [leVal]
  | cons b rest ih =>
    have hb : b < 256 := h b (by simp)
    have hr : leVal rest < 2 ^ (8 * rest.length) := ih (fun x hx => h x (by simp [hx]))
    have : (2 : Nat) ^ (8 * (b :: rest).length) = 256 * 2 ^ (8 * rest.length) := by
      simp [List.length_cons, Nat.mul_succ, pow_add]; ring
    rw [leVal_cons, this]
    calc b + 256 * leVal rest < 256 + 256 * leVal rest := by omega
      _ = 256 * (leVal rest + 1) := by ring
      _ ≤ 256 * 2 ^ (8 * rest.length) := by
          exact Nat.mul_le_mul_left _ (by omega)

theorem leVal_append (xs ys : List Nat) :
    leVal (xs ++ ys) = leVal xs + 256 ^ xs.length * leVal ys := by
  induction xs with
  | nil => simp [leVal]
  | cons b rest ih =>
    simp only [List.cons_append, leVal_cons, ih, List.length_cons]
    ring

theorem leBytes_leVal (l : List Nat) (h : ∀ b ∈ l, b < 256) :
    leBytes (leVal l) l.length = l := by
  induction l with
  | nil => rfl
  | cons b rest ih =>
    have hb : b < 256 := h b (by simp)
    have h1 : (b + 256 * leVal rest) % 256 = b := by omega
    have h2 : (b + 256 * leVal rest) / 256 = leVal rest := by omega
    simp only [List.length_cons, leBytes, leVal_cons, h1, h2]
    rw [ih (fun x hx => h x (by simp [hx]))]

/-! ### Item bit-packing (`BaseApp.pack_item_values` / `unpack_item_values`,
`src/borderlands/savefile.py` lines 112-145) -/

/-- `BaseApp.item_sizes` (savefile.py lines 52-55): bit widths of the 17
item fields, indexed by `is_weapon`. -/
def item_sizes : List (List Nat) :=
  [[8, 17, 20, 11, 7, 7, 16, 16, 16, 16, 16, 16, 16, 16, 16, 16, 16],
   [8, 13, 20, 11, 7, 7, 17, 17, 17, 17, 17, 17, 17, 17, 17, 17, 17]]

/-- The inner `while value != 0` write-out loop of `pack_item_values`
(savefile.py lines 120-123), for the nonnegative values reached on the
editor's write path.  Writing at an index beyond the 32-byte buffer (a
Python `IndexError`) yields `none`. -/
def writeLoop (v : Nat) (j : Nat) (buf : List Nat) : Option (List Nat) :=
  if hv : v = 0 then some buf
  else if hj : j < buf.length then
    writeLoop (v >>> 8) (j + 1) (buf.set j (buf.get ⟨j, hj⟩ ||| (v &&& 0xFF)))
  else none
termination_by v
decreasing_by
  simp only [Nat.shiftRight_eq_div_pow]
  exact Nat.div_lt_self (Nat.pos_of_ne_zero hv) (by norm_num)

/-- The `for value, size in zip(values, item_sizes[is_weapon])` loop of
`pack_item_values` (savefile.py lines 115-124); `i` is the running bit
offset, the loop stops at the first `None` value. -/
def packLoop : List (Option Nat × Nat) → Nat → List Nat → Option (Nat × List Nat)
  | [], i, buf => some (i, buf)
  | (none, _) :: _, i, buf => some (i, buf)
  | (some v, size) :: rest, i, buf =>
    match writeLoop (v <<< (i % 8)) (i / 8) buf with
    | none => none
    | some buf2 => packLoop rest (i + size) buf2

/-- `BaseApp.pack_item_values` (savefile.py lines 112-128).  After the field
loop, if the bit offset ends mid-byte the remaining high bits of that byte
are set to ones, and the first `ceil(i / 8)` bytes of the 32-byte buffer are
returned.  A Python `IndexError` (write beyond the buffer) yields `none`. -/
def pack_item_values (is_weapon : Nat) (values : List (Option Nat)) : Option (List Nat) :=
  match packLoop (values.zip (item_sizes.getD is_weapon [])) 0 (List.replicate 32 0) with
  | none => none
  | some (i, buf) =>
    if i % 8 ≠ 0 then
      if h : i / 8 < buf.length then
        some ((buf.set (i / 8) (buf.get ⟨i / 8, h⟩ ||| ((0xFF <<< (i % 8)) &&& 0xFF))).take
          ((i + 7) / 8))
      else none
    else some (buf.take ((i + 7) / 8))

/-- Python's `v & ~m` for nonnegative arbitrary-precision `v` and `m`:
clears in `v` every bit that is set in `m`. -/
def andNot (v m : Nat) : Nat := v - (v &&& m)

/-- The byte slice `data[j >> 3 : (i >> 3) - 1 : -1]` read by the inner loop
of `unpack_item_values` (savefile.py line 141) — bytes `hi` down to `lo`,
with Python's clipping of a too-large start index — followed by the
accumulation `value = (value << 8) | b` (line 142). -/
def pySliceVal (data : List Nat) (lo hi : Nat) : Nat :=
  (((data.drop lo).take (min hi (data.length - 1) + 1 - lo)).reverse).foldl
    (fun v b => (v <<< 8) ||| b) 0

/-- The `for size in item_sizes[is_weapon]` loop of `unpack_item_values`
(savefile.py lines 135-144): a field whose end `i + size` lies past the end
of the data yields `None` and does not advance `i`. -/
def unpackLoop (data : List Nat) (endBits : Nat) : Nat → List Nat → List (Option Nat)
  | _, [] => []
  | i, size :: rest =>
    if i + size > endBits then none :: unpackLoop data endBits i rest
    else
      some (andNot (pySliceVal data (i / 8) ((i + size) / 8) >>> (i % 8)) (0xFF <<< size))
        :: unpackLoop data endBits (i + size) rest

/-- `BaseApp.unpack_item_values` (savefile.py lines 130-145).  The data is
prefixed with one space byte and the bit offset starts at 8. -/
def unpack_item_values (is_weapon : Nat) (data : List Nat) : List (Option Nat) :=
  unpackLoop (0x20 :: data) ((data.length + 1) * 8) 8 (item_sizes.getD is_weapon [])

/-- Outcome of the inner write loop when modelled over `Int`:
`idxError` is a Python `IndexError`, `outOfFuel` marks that the given step
budget ran out before the loop terminated. -/
inductive LoopOut
  | ok (buf : List Nat)
  | idxError
  | outOfFuel
deriving DecidableEq

/-- The same inner `while value != 0` loop of `pack_item_values`
(savefile.py lines 120-123), modelled over `Int` so that Python's behaviour
on negative values is captured exactly: `value & 0xFF` is `value mod 256`
(always nonnegative) and `value >> 8` is a flooring division by 256. -/
def writeLoopInt (fuel : Nat) (v : Int) (j : Nat) (buf : List Nat) : LoopOut :=
  match fuel with
  | 0 => .outOfFuel
  | fuel + 1 =>
    if v = 0 then .ok buf
    else if hj : j < buf.length then
      writeLoopInt fuel (Int.fdiv v 256) (j + 1)
        (buf.set j (buf.get ⟨j, hj⟩ ||| (Int.emod v 256).toNat))
    else .idxError

example : unpack_item_values 0 [0xAB] = 
    [some 0xAB, none, none, none, none, none, none, none, none, none, none, none, none,
     none, none, none, none] := by decide

/-! ### Envelope codec (`BaseApp.unwrap_player_data` / `wrap_player_data`,
`src/borderlands/savefile.py` lines 216-265) -/

/-- A `struct` byte order: `'<'` (little) or `'>'` (big). -/
inductive Endian
  | little
  | big
deriving DecidableEq

/-- `struct.pack` of one unsigned 32-bit word in the given byte order. -/
def packU32 (e : Endian) (v : Nat) : List Nat :=
  match e with
  | .little => leBytes v 4
  | .big => (leBytes v 4).reverse

/-- The 32-bit word at byte offset `off` of `l`, read big-endian
(`struct.unpack('>I', ...)`). -/
def readU32BE (l : List Nat) (off : Nat) : Nat :=
  leVal ((l.drop off).take 4).reverse

/-- The 32-bit word at byte offset `off` of `l`, read little-endian
(`struct.unpack('<I', ...)`). -/
def readU32LE (l : List Nat) (off : Nat) : Nat :=
  leVal ((l.drop off).take 4)

/-- Modelled from the spec: the library functions `unwrap_player_data` and
`wrap_player_data` call whose modules are not among the sources at hand —
`hashlib.sha1`, `binascii.crc32`, `lzo1x_decompress` / `lzo1x_1_compress`
(`borderlands.util.lzo1x`) and the Huffman codec
(`borderlands.util.huffman` with `borderlands.util.bitstreams`).  The
envelope layer is verified for every family of such functions satisfying
the laws the specification states for them.  `huffEncode player` stands for
writing the serialized tree followed by the compressed payload to a
bitstream (`write_huffman_tree`, `huffman_compress`, `getvalue`);
`huffDecode data n` stands for parsing the tree and decompressing exactly
`n` bytes (`read_huffman_tree`, `huffman_decompress`), `none` on failure. -/
structure ExternalCodecs where
  sha1 : List Nat → List Nat
  crc32 : List Nat → Nat
  lzoCompress : List Nat → List Nat
  lzoDecompress : List Nat → Option (List Nat)
  huffEncode : List Nat → List Nat
  huffDecode : List Nat → Nat → Option (List Nat)

/-- The failure modes of `unwrap_player_data`: the three `BorderlandsError`
messages of savefile.py lines 225, 230 and 242, plus the exceptions the
called codecs raise (`struct.error` on a short buffer, LZO and Huffman
failures). -/
inductive SaveErr
  | invalidSave
  | lzoError
  | headerTooShort
  | unknownVersion (v : Nat)
  | huffmanError
  | badCRC
deriving DecidableEq

/-- The header crc word as selected by `unwrap_player_data` (savefile.py
lines 232-235): bytes 11-14 read big-endian when the version word is 2,
little-endian otherwise. -/
def saveCrcWord (d : List Nat) : Nat :=
  if readU32BE d 7 = 2 then readU32BE d 11 else readU32LE d 11

/-- The header inner-size word as selected by `unwrap_player_data`
(savefile.py lines 232-235): bytes 15-18, same endianness choice as the crc
word. -/
def saveSizeWord (d : List Nat) : Nat :=
  if readU32BE d 7 = 2 then readU32BE d 15 else readU32LE d 15

/-- `BaseApp.unwrap_player_data` (savefile.py lines 216-244). -/
def unwrap_player_data (C : ExternalCodecs) (data : List Nat) :
    Except SaveErr (List Nat) :=
  if data.take 20 ≠ C.sha1 (data.drop 20) then .error .invalidSave
  else
    match C.lzoDecompress (0xF0 :: data.drop 20) with
    | none => .error .lzoError
    | some d =>
      if d.length < 11 then .error .headerTooShort
      else if readU32BE d 7 ≠ 2 ∧ readU32BE d 7 ≠ 0x02000000 then
        .error (.unknownVersion (readU32BE d 7))
      else if d.length < 19 then .error .headerTooShort
      else
        match C.huffDecode (d.drop 19) (saveSizeWord d) with
        | none => .error .huffmanError
        | some player =>
          if C.crc32 player &&& 0xFFFFFFFF ≠ saveCrcWord d then .error .badCRC
          else .ok player

/-- The local variable `data` of `wrap_player_data` (savefile.py lines
254-258): the Huffman bitstream of the player followed by four zero bytes. -/
def envData (C : ExternalCodecs) (player : List Nat) : List Nat :=
  C.huffEncode player ++ [0, 0, 0, 0]

/-- The local variable `header` of `wrap_player_data` (savefile.py lines
260-261): `struct.pack('>I3s', len(data) + 15, b'WSG')` followed by
`struct.pack(endian + 'III', 2, crc, len(player))`. -/
def envHeader (C : ExternalCodecs) (endian : Endian) (player : List Nat) : List Nat :=
  packU32 .big ((envData C player).length + 15) ++ [0x57, 0x53, 0x47]
    ++ packU32 endian 2 ++ packU32 endian (C.crc32 player &&& 0xFFFFFFFF)
    ++ packU32 endian player.length

/-- The compressed body of `wrap_player_data` (savefile.py line 263):
`lzo1x_1_compress(header + data)[1:]`. -/
def envBody (C : ExternalCodecs) (endian : Endian) (player : List Nat) : List Nat :=
  (C.lzoCompress (envHeader C endian player ++ envData C player)).drop 1

/-- `BaseApp.wrap_player_data` (savefile.py lines 246-265); `endian` is
`self.config.endian`. -/
def wrap_player_data (C : ExternalCodecs) (endian : Endian) (player : List Nat) :
    List Nat :=
  C.sha1 (envBody C endian player) ++ envBody C endian player

/-- Modelled from the spec: a concrete executable instance of
`ExternalCodecs`, used to evaluate the envelope on explicit byte strings.
`sha1` is a stand-in deterministic 20-byte digest and `crc32` a stand-in
32-bit checksum (the envelope depends only on their determinism and output
shape); `lzoCompress` emits a pure literal run whose first byte is the
`0xF0` literal-run marker that `wrap_player_data` strips and
`unwrap_player_data` re-prepends, and the Huffman pair realizes the spec's
round-trip law with a length-bounded decode. -/
def testCodecs : ExternalCodecs where
  sha1 d := List.replicate 20 ((d.foldl (fun a b => a * 31 + b) 7) % 251)
  crc32 p := (p.foldl (fun a b => a * 31 + b) 0) % 2 ^ 32
  lzoCompress x := 0xF0 :: x
  lzoDecompress y :=
    match y with
    | 0xF0 :: rest => some rest
    | _ => none
  huffEncode p := p
  huffDecode s n := if n ≤ s.length then some (s.take n) else none

theorem length_packU32 (e : Endian) (v : Nat) : (packU32 e v).length = 4 := by
  cases e <;> simp [packU32, length_leBytes]

theorem readU32LE_packU32 (v : Nat) (hv : v < 2 ^ 32) (rest : List Nat) :
    readU32LE (packU32 .little v ++ rest) 0 = v := by
  simp only [readU32LE, packU32, List.drop_zero]
  rw [List.take_left' (length_leBytes v 4), leVal_leBytes]
  omega

theorem readU32BE_packU32 (v : Nat) (hv : v < 2 ^ 32) (rest : List Nat) :
    readU32BE (packU32 .big v ++ rest) 0 = v := by
  simp only [readU32BE, packU32, List.drop_zero]
  rw [List.take_left' (by simp [length_leBytes]), List.reverse_reverse, leVal_leBytes]
  omega

theorem readU32BE_packU32_little_two (rest : List Nat) :
    readU32BE (packU32 .little 2 ++ rest) 0 = 0x02000000 := by
  show readU32BE ([2, 0, 0, 0] ++ rest) 0 = 0x02000000
  simp [readU32BE, leVal, List.take_cons]

/-- Success characterization of `unwrap_player_data`, shared between the
endianness and validity theorems below. -/
theorem unwrap_player_data_ok_iff (C : ExternalCodecs) (data player : List Nat) :
    unwrap_player_data C data = .ok player ↔
      (data.take 20 = C.sha1 (data.drop 20) ∧
        ∃ d, C.lzoDecompress (0xF0 :: data.drop 20) = some d ∧
          19 ≤ d.length ∧
          (readU32BE d 7 = 2 ∨ readU32BE d 7 = 0x02000000) ∧
          C.huffDecode (d.drop 19) (saveSizeWord d) = some player ∧
          C.crc32 player &&& 0xFFFFFFFF = saveCrcWord d) := by
  constructor
  · intro h
    unfold unwrap_player_data at h
    split at h
    · cases h
    next hsha =>
      rw [not_not] at hsha
      refine ⟨hsha, ?_⟩
      split at h
      · cases h
      next d hlzo =>
        refine ⟨d, hlzo, ?_⟩
        split at h
        · cases h
        next h11 =>
          split at h
          · cases h
          next hver =>
            rw [not_and_or, not_not, not_not] at hver
            split at h
            · cases h
            next h19 =>
              split at h
              · cases h
              next player2 hhuff =>
                split at h
                · cases h
                next hcrc =>
                  rw [not_not] at hcrc
                  cases h
                  exact ⟨by omega, hver, hhuff, hcrc⟩
  · rintro ⟨hsha, d, hlzo, hlen, hver, hhuff, hcrc⟩
    have h11 : ¬ (d.length < 11) := by omega
    have h19 : ¬ (d.length < 19) := by omega
    have hver2 : ¬ (readU32BE d 7 ≠ 2 ∧ readU32BE d 7 ≠ 0x02000000) := by tauto
    simp [unwrap_player_data, hlzo, hsha, hhuff, h11, h19, hver2, hcrc]

theorem readU32LE_append_offset (xs ys : List Nat) (n : Nat) (h : xs.length = n) :
    readU32LE (xs ++ ys) n = readU32LE ys 0 := by
  simp [readU32LE, List.drop_left' h]

theorem readU32BE_append_offset (xs ys : List Nat) (n : Nat) (h : xs.length = n) :
    readU32BE (xs ++ ys) n = readU32BE ys 0 := by
  simp [readU32BE, List.drop_left' h]

/-- C1.  **Envelope round-trip**: for every player byte string (of length
below `2 ^ 32`, which covers the claim's 0 to ~1 MB range) and either
configured endianness, decoding the envelope of its encoding returns it
unchanged: `unwrap_player_data (wrap_player_data player) = player`.  The
missing library codecs are universally quantified, constrained exactly by
the laws the specification states for them: SHA-1 digests are 20 bytes,
LZO decompression undoes compression once the stripped leading literal-run
marker `0xF0` is restored, and Huffman decoding undoes encoding in the
presence of trailing padding. -/
theorem envHeader_append_shape7 (C : ExternalCodecs) (e : Endian) (player tail : List Nat) :
    envHeader C e player ++ tail
      = (packU32 .big ((envData C player).length + 15) ++ [0x57, 0x53, 0x47])
        ++ (packU32 e 2 ++ (packU32 e (C.crc32 player &&& 0xFFFFFFFF)
          ++ (packU32 e player.length ++ tail))) := by
  simp [envHeader, List.append_assoc]

theorem envHeader_append_shape11 (C : ExternalCodecs) (e : Endian) (player tail : List Nat) :
    envHeader C e player ++ tail
      = (packU32 .big ((envData C player).length + 15) ++ [0x57, 0x53, 0x47]
          ++ packU32 e 2)
        ++ (packU32 e (C.crc32 player &&& 0xFFFFFFFF)
          ++ (packU32 e player.length ++ tail)) := by
  simp [envHeader, List.append_assoc]

theorem envHeader_append_shape15 (C : ExternalCodecs) (e : Endian) (player tail : List Nat) :
    envHeader C e player ++ tail
      = (packU32 .big ((envData C player).length + 15) ++ [0x57, 0x53, 0x47]
          ++ packU32 e 2 ++ packU32 e (C.crc32 player &&& 0xFFFFFFFF))
        ++ (packU32 e player.length ++ tail) := by
  simp [envHeader, List.append_assoc]

theorem envHeader_drop19 (C : ExternalCodecs) (e : Endian) (player tail : List Nat) :
    (envHeader C e player ++ tail).drop 19 = tail :=
  List.drop_left' (by simp [envHeader, length_packU32])

theorem envHeader_version (C : ExternalCodecs) (e : Endian) (player tail : List Nat) :
    readU32BE (envHeader C e player ++ tail) 7
      = (match e with | .little => 0x02000000 | .big => 2) := by
  rw [envHeader_append_shape7,
    readU32BE_append_offset _ _ 7 (by simp [length_packU32])]
  cases e
  · exact readU32BE_packU32_little_two _
  · exact readU32BE_packU32 2 (by norm_num) _

theorem envHeader_crcWord (C : ExternalCodecs) (e : Endian) (player tail : List Nat) :
    saveCrcWord (envHeader C e player ++ tail) = C.crc32 player &&& 0xFFFFFFFF := by
  have hcrclt : C.crc32 player &&& 0xFFFFFFFF < 2 ^ 32 :=
    lt_of_le_of_lt Nat.and_le_right (by norm_num)
  unfold saveCrcWord
  rw [envHeader_version]
  cases e
  · rw [if_neg (by norm_num), envHeader_append_shape11,
      readU32LE_append_offset _ _ 11 (by simp [length_packU32])]
    exact readU32LE_packU32 _ hcrclt _
  · rw [if_pos rfl, envHeader_append_shape11,
      readU32BE_append_offset _ _ 11 (by simp [length_packU32])]
    exact readU32BE_packU32 _ hcrclt _

theorem envHeader_sizeWord (C : ExternalCodecs) (e : Endian) (player tail : List Nat)
    (hplen : player.length < 2 ^ 32) :
    saveSizeWord (envHeader C e player ++ tail) = player.length := by
  unfold saveSizeWord
  rw [envHeader_version]
  cases e
  · rw [if_neg (by norm_num), envHeader_append_shape15,
      readU32LE_append_offset _ _ 15 (by simp [length_packU32])]
    exact readU32LE_packU32 _ hplen _
  · rw [if_pos rfl, envHeader_append_shape15,
      readU32BE_append_offset _ _ 15 (by simp [length_packU32])]
    exact readU32BE_packU32 _ hplen _

/-- C1.  **Envelope round-trip**: for every player byte string (of length
below `2 ^ 32`, which covers the claim's 0 to ~1 MB range) and either
configured endianness, decoding the envelope of its encoding returns it
unchanged: `unwrap_player_data (wrap_player_data player) = player`.  The
library codecs missing from the sources at hand are universally
quantified, constrained exactly by the laws the specification states for
them: SHA-1 digests are 20 bytes, LZO decompression undoes compression
once the stripped leading literal-run marker `0xF0` is restored, and
Huffman decoding undoes encoding in the presence of trailing padding. -/
theorem c1_envelope_roundtrip (C : ExternalCodecs) (e : Endian) (player : List Nat)
    (hsha : ∀ d, (C.sha1 d).length = 20)
    (hlzo : ∀ x, C.lzoDecompress (0xF0 :: (C.lzoCompress x).drop 1) = some x)
    (hhuff : ∀ p extra, C.huffDecode (C.huffEncode p ++ extra) p.length = some p)
    (hplen : player.length < 2 ^ 32) :
    unwrap_player_data C (wrap_player_data C e player) = .ok player := by
  rw [show wrap_player_data C e player
    = C.sha1 (envBody C e player) ++ envBody C e player from rfl]
  rw [unwrap_player_data_ok_iff]
  have hdrop20 : (C.sha1 (envBody C e player) ++ envBody C e player).drop 20
      = envBody C e player := List.drop_left' (hsha _)
  refine ⟨?_, envHeader C e player ++ envData C player, ?_, ?_, ?_, ?_, ?_⟩
  · rw [List.take_left' (hsha _), hdrop20]
  · rw [hdrop20]
    exact hlzo _
  · simp [envHeader, length_packU32]
    omega
  · rw [envHeader_version]
    cases e
    · right; rfl
    · left; rfl
  · rw [envHeader_sizeWord C e player _ hplen, envHeader_drop19]
    exact hhuff player _
  · rw [envHeader_crcWord]

deriving instance DecidableEq for Except

theorem testCodecs_sha1_length : ∀ d, (testCodecs.sha1 d).length = 20 := by
  intro d; simp [testCodecs]

theorem testCodecs_lzo_law :
    ∀ x, testCodecs.lzoDecompress (0xF0 :: (testCodecs.lzoCompress x).drop 1) = some x :=
  fun _ => rfl

theorem testCodecs_huff_law :
    ∀ p extra, testCodecs.huffDecode (testCodecs.huffEncode p ++ extra) p.length = some p := by
  intro p extra
  show (if p.length ≤ (p ++ extra).length then some ((p ++ extra).take p.length) else none)
    = some p
  rw [if_pos (by simp), List.take_left]

/-- Witness for C1: the round-trip evaluated at the concrete player
`[1, 2, 3]` under both endian settings, with every hypothesis discharged. -/
theorem c1_envelope_roundtrip_witness :
    unwrap_player_data testCodecs (wrap_player_data testCodecs .little [1, 2, 3])
        = .ok [1, 2, 3] ∧
    unwrap_player_data testCodecs (wrap_player_data testCodecs .big [1, 2, 3])
        = .ok [1, 2, 3] :=
  ⟨c1_envelope_roundtrip testCodecs .little [1, 2, 3] testCodecs_sha1_length
      testCodecs_lzo_law testCodecs_huff_law (by norm_num),
    c1_envelope_roundtrip testCodecs .big [1, 2, 3] testCodecs_sha1_length
      testCodecs_lzo_law testCodecs_huff_law (by norm_num)⟩

/-- C3 (amended).  When decoding the envelope succeeds, the crc and
inner-size header words are read **big-endian** exactly when the version
word (read big-endian) equals 2, and **little-endian** exactly when it
equals 0x02000000 — the reverse of the claimed selection. -/
theorem c3_endian_selection (C : ExternalCodecs) (data player d : List Nat)
    (hok : unwrap_player_data C data = .ok player)
    (hlzo : C.lzoDecompress (0xF0 :: data.drop 20) = some d) :
    (readU32BE d 7 = 2 →
      C.crc32 player &&& 0xFFFFFFFF = readU32BE d 11 ∧
      C.huffDecode (d.drop 19) (readU32BE d 15) = some player) ∧
    (readU32BE d 7 = 0x02000000 →
      C.crc32 player &&& 0xFFFFFFFF = readU32LE d 11 ∧
      C.huffDecode (d.drop 19) (readU32LE d 15) = some player) := by
  rw [unwrap_player_data_ok_iff] at hok
  obtain ⟨-, d2, hlzo2, -, -, hhuff, hcrc⟩ := hok
  rw [hlzo] at hlzo2
  have hd : d = d2 := by injection hlzo2
  subst hd
  constructor
  · intro hv
    rw [saveCrcWord, if_pos hv] at hcrc
    rw [saveSizeWord, if_pos hv] at hhuff
    exact ⟨hcrc, hhuff⟩
  · intro hv
    have hv2 : readU32BE d 7 ≠ 2 := by rw [hv]; norm_num
    rw [saveCrcWord, if_neg hv2] at hcrc
    rw [saveSizeWord, if_neg hv2] at hhuff
    exact ⟨hcrc, hhuff⟩

/-- A concrete save file written with the big-endian configuration: its
inner version word reads 2 big-endian. -/
def c3File : List Nat := wrap_player_data testCodecs .big [1]

/-- The LZO-decompressed body of `c3File`. -/
def c3Body : List Nat := envHeader testCodecs .big [1] ++ envData testCodecs [1]

/-- C3 counterexample: on `c3File` the decoder reads version 2 and
succeeds, yet the crc of the decoded player differs from the little-endian
reading of the crc word and equals its big-endian reading — so for
version 2 the decoder selects big-endian, not little-endian as claimed. -/
theorem c3_counterexample :
    readU32BE c3Body 7 = 2 ∧
    testCodecs.lzoDecompress (0xF0 :: c3File.drop 20) = some c3Body ∧
    unwrap_player_data testCodecs c3File = .ok [1] ∧
    testCodecs.crc32 [1] &&& 0xFFFFFFFF ≠ readU32LE c3Body 11 ∧
    testCodecs.crc32 [1] &&& 0xFFFFFFFF = readU32BE c3Body 11 := by decide

/-- Witness for the amended C3 at the concrete input `c3File`. -/
theorem c3_endian_selection_witness :
    (readU32BE c3Body 7 = 2 →
      testCodecs.crc32 [1] &&& 0xFFFFFFFF = readU32BE c3Body 11 ∧
      testCodecs.huffDecode (c3Body.drop 19) (readU32BE c3Body 15) = some [1]) ∧
    (readU32BE c3Body 7 = 0x02000000 →
      testCodecs.crc32 [1] &&& 0xFFFFFFFF = readU32LE c3Body 11 ∧
      testCodecs.huffDecode (c3Body.drop 19) (readU32LE c3Body 15) = some [1]) :=
  c3_endian_selection testCodecs c3File [1] c3Body (by decide) (by decide)

/-- A hand-built save whose inner magic bytes are `[1, 2, 3]` instead of
`"WSG"`: SHA-1 prefix, then a header with outer size `[0,0,0,0]`, bad
magic, version 2 big-endian, crc word 1, inner size 1, and a one-byte
Huffman payload. -/
def c4Body : List Nat := [0, 0, 0, 0, 1, 2, 3, 0, 0, 0, 2, 0, 0, 0, 1, 0, 0, 0, 1, 1]

/-- The envelope of `c4Body` under the stand-in codecs. -/
def c4File : List Nat := testCodecs.sha1 c4Body ++ c4Body

/-- C4 counterexample: `unwrap_player_data` accepts a file whose three
magic bytes are not `"WSG"` — the decoder never checks the magic, so the
claimed "if and only if" fails in the only-if direction. -/
theorem c4_counterexample :
    unwrap_player_data testCodecs c4File = .ok [1] ∧
    testCodecs.lzoDecompress (0xF0 :: c4File.drop 20) = some c4Body ∧
    (c4Body.drop 4).take 3 ≠ [0x57, 0x53, 0x47] := by decide

/-- C4 (amended).  `unwrap_player_data` returns the player bytes if and
only if: the first 20 bytes equal the SHA-1 of the rest, LZO decompression
succeeds and yields at least the 19 header bytes, the version word is in
{2, 0x02000000}, Huffman decoding of the inner-size many bytes succeeds,
and the CRC32 of the decoded player equals the header crc word (read in
the endianness the version selects).  The magic bytes are *not* checked. -/
theorem c4_unwrap_validity (C : ExternalCodecs) (data player : List Nat) :
    unwrap_player_data C data = .ok player ↔
      (data.take 20 = C.sha1 (data.drop 20) ∧
        ∃ d, C.lzoDecompress (0xF0 :: data.drop 20) = some d ∧
          19 ≤ d.length ∧
          (readU32BE d 7 = 2 ∨ readU32BE d 7 = 0x02000000) ∧
          C.huffDecode (d.drop 19) (saveSizeWord d) = some player ∧
          C.crc32 player &&& 0xFFFFFFFF = saveCrcWord d) :=
  unwrap_player_data_ok_iff C data player

/-! ### Bit-arithmetic helpers -/

theorem shiftLeft_or_byte (a b : Nat) (hb : b < 256) : (a <<< 8) ||| b = 256 * a + b := by
  have h := Nat.mul_add_lt_is_or (i := 8) (show b < 2 ^ 8 by norm_num [hb]) a
  rw [Nat.shiftLeft_eq, Nat.mul_comm a (2 ^ 8), ← h]

theorem and_shiftLeft_eq (X m s : Nat) : X &&& (m <<< s) = ((X >>> s) &&& m) <<< s := by
  apply Nat.eq_of_testBit_eq
  intro i
  simp only [Nat.testBit_and, Nat.testBit_shiftLeft, Nat.testBit_shiftRight]
  by_cases h : s ≤ i
  · simp [h, Nat.add_sub_cancel' h]
  · simp [h]

theorem shiftRight_lt (X s n : Nat) (h : X < 2 ^ (s + n)) : X >>> s < 2 ^ n := by
  rw [Nat.shiftRight_eq_div_pow]
  apply Nat.div_lt_of_lt_mul
  rw [← pow_add]
  omega

/-- Python's `v & ~(0xFF << s)` applied to a value with fewer than `s + 8`
bits keeps exactly the low `s` bits. -/
theorem andNot_mask (X s : Nat) (hX : X < 2 ^ (s + 8)) :
    andNot X (0xFF <<< s) = X % 2 ^ s := by
  have h1 : X &&& (0xFF <<< s) = ((X >>> s) &&& 0xFF) <<< s := and_shiftLeft_eq X 0xFF s
  have hdiv : X >>> s < 2 ^ 8 := shiftRight_lt X s 8 hX
  have h2 : (X >>> s) &&& 0xFF = X >>> s := by
    have h255 : (0xFF : Nat) = 2 ^ 8 - 1 := by norm_num
    rw [h255, Nat.and_pow_two_sub_one_eq_mod, Nat.mod_eq_of_lt hdiv]
  rw [andNot, h1, h2, Nat.shiftLeft_eq, Nat.shiftRight_eq_div_pow]
  exact Nat.sub_eq_of_eq_add (Nat.mod_add_div' X (2 ^ s)).symm

theorem mod_pow_mod (a n s : Nat) (h : s ≤ n) : (a % 2 ^ n) % 2 ^ s = a % 2 ^ s :=
  Nat.mod_mod_of_dvd a (pow_dvd_pow 2 h)

theorem leVal_take_mod (l : List Nat) (h : ∀ b ∈ l, b < 256) (t : Nat) :
    leVal (l.take t) = leVal l % 2 ^ (8 * t) := by
  induction l generalizing t with
  | nil => simp [leVal]
  | cons b rest ih =>
    cases t with
    | zero => simp [leVal, Nat.mod_one]
    | succ t =>
      have hb : b < 256 := h b (by simp)
      have h8 : (2 : Nat) ^ (8 * (t + 1)) = 256 * 2 ^ (8 * t) := by
        rw [Nat.mul_succ, pow_add]; ring
      simp only [List.take_succ_cons, leVal_cons, ih (fun x hx => h x (by simp [hx])), h8]
      rw [Nat.mod_mul]
      have h1 : (b + 256 * leVal rest) % 256 = b := by omega
      have h2 : (b + 256 * leVal rest) / 256 = leVal rest := by omega
      rw [h1, h2]

theorem leVal_drop_div (l : List Nat) (h : ∀ b ∈ l, b < 256) (t : Nat) :
    leVal (l.drop t) = leVal l / 2 ^ (8 * t) := by
  induction l generalizing t with
  | nil => simp [leVal]
  | cons b rest ih =>
    cases t with
    | zero => simp
    | succ t =>
      have hb : b < 256 := h b (by simp)
      have h8 : (2 : Nat) ^ (8 * (t + 1)) = 256 * 2 ^ (8 * t) := by
        rw [Nat.mul_succ, pow_add]; ring
      simp only [List.drop_succ_cons, leVal_cons, ih (fun x hx => h x (by simp [hx])), h8]
      rw [← Nat.div_div_eq_div_mul]
      have h2 : (b + 256 * leVal rest) / 256 = leVal rest := by omega
      rw [h2]

theorem pyFold_reverse (l : List Nat) (h : ∀ b ∈ l, b < 256) :
    (l.reverse).foldl (fun v b => (v <<< 8) ||| b) 0 = leVal l := by
  induction l with
  | nil => rfl
  | cons b rest ih =>
    have hb : b < 256 := h b (by simp)
    simp only [List.reverse_cons, List.foldl_append, List.foldl_cons, List.foldl_nil]
    rw [ih (fun x hx => h x (by simp [hx])), shiftLeft_or_byte _ _ hb, leVal_cons]
    omega

/-- The value computed for one fitting field of `unpack_item_values`
(savefile.py lines 140-143) is the `size`-bit slice of the data at bit
offset `i` (bit offsets counted little-endian within each byte). -/
theorem unpack_entry_eq (data : List Nat) (h : ∀ b ∈ data, b < 256) (i size : Nat)
    (hsize : 1 ≤ size) (hfit : i + size ≤ 8 * data.length) :
    andNot (pySliceVal data (i / 8) ((i + size) / 8) >>> (i % 8)) (0xFF <<< size)
      = (leVal data >>> i) % 2 ^ size := by
  have hlen : 0 < data.length := by omega
  have hi_lt : i < 8 * data.length := by omega
  rcases min_cases ((i + size) / 8) (data.length - 1) with ⟨heq, hle⟩ | ⟨heq, hle⟩ <;>
  [skip; skip] <;>
  · set lo := i / 8 with hlo
    set hi2 := min ((i + size) / 8) (data.length - 1) with hhi2
    have hmin1 : hi2 ≤ (i + size) / 8 := Nat.min_le_left _ _
    have hmin2 : hi2 ≤ data.length - 1 := Nat.min_le_right _ _
    have hdropbytes : ∀ b ∈ data.drop lo, b < 256 :=
      fun b hb => h b (List.mem_of_mem_drop hb)
    have htakebytes : ∀ b ∈ (data.drop lo).take (hi2 + 1 - lo), b < 256 :=
      fun b hb => hdropbytes b (List.mem_of_mem_take hb)
    have hslice : pySliceVal data lo ((i + size) / 8)
        = (leVal data / 2 ^ (8 * lo)) % 2 ^ (8 * (hi2 + 1 - lo)) := by
      unfold pySliceVal
      rw [← hhi2, pyFold_reverse _ htakebytes,
        leVal_take_mod _ hdropbytes, leVal_drop_div _ h]
    have hX : pySliceVal data lo ((i + size) / 8) >>> (i % 8)
        = (leVal data / 2 ^ i) % 2 ^ (8 * (hi2 + 1) - i) := by
      rw [hslice, Nat.shiftRight_eq_div_pow]
      have hexp1 : 8 * (hi2 + 1 - lo) = i % 8 + (8 * (hi2 + 1) - i) := by omega
      rw [hexp1, pow_add, Nat.mod_mul_right_div_self, Nat.div_div_eq_div_mul, ← pow_add]
      have hexp2 : 8 * lo + i % 8 = i := by omega
      rw [hexp2]
    have hXlt : (leVal data / 2 ^ i) % 2 ^ (8 * (hi2 + 1) - i) < 2 ^ (size + 8) := by
      refine lt_of_lt_of_le (Nat.mod_lt _ (Nat.pos_pow_of_pos _ (by norm_num))) ?_
      exact Nat.pow_le_pow_right (by norm_num) (by omega)
    rw [hX, andNot_mask _ _ hXlt, mod_pow_mod _ _ _ (by omega), Nat.shiftRight_eq_div_pow]

/-- The bit offset at which the `k`-th field of the `unpack_item_values`
loop is read: `i` advances by a field's width only when the field fits
(savefile.py lines 136-144). -/
def unpackOff (endBits : Nat) : Nat → List Nat → Nat → Nat
  | i, _, 0 => i
  | i, [], _ + 1 => i
  | i, size :: rest, k + 1 =>
    unpackOff endBits (if i + size > endBits then i else i + size) rest k

theorem unpackLoop_length (data : List Nat) (endBits : Nat) :
    ∀ (sizes : List Nat) (i : Nat),
      (unpackLoop data endBits i sizes).length = sizes.length := by
  intro sizes
  induction sizes with
  | nil => intro i; rfl
  | cons size rest ih =>
    intro i
    unfold unpackLoop
    split <;> simp [ih]

theorem unpackOff_le (endBits : Nat) :
    ∀ (sizes : List Nat) (i k : Nat), i ≤ unpackOff endBits i sizes k := by
  intro sizes
  induction sizes with
  | nil => intro i k; cases k <;> simp [unpackOff]
  | cons size rest ih =>
    intro i k
    cases k with
    | zero => simp [unpackOff]
    | succ k =>
      rw [unpackOff]
      refine le_trans ?_ (ih _ k)
      split <;> omega

theorem unpackOff_mono (endBits : Nat) :
    ∀ (sizes : List Nat) (i k m : Nat), k ≤ m →
      unpackOff endBits i sizes k ≤ unpackOff endBits i sizes m := by
  intro sizes
  induction sizes with
  | nil =>
    intro i k m _
    cases k <;> cases m <;> simp [unpackOff]
  | cons size rest ih =>
    intro i k m hkm
    cases k with
    | zero =>
      have h0 : unpackOff endBits i (size :: rest) 0 = i := rfl
      rw [h0]
      exact unpackOff_le endBits (size :: rest) i m
    | succ k =>
      cases m with
      | zero => omega
      | succ m =>
        rw [unpackOff, unpackOff]
        exact ih _ k m (by omega)

theorem unpackLoop_getD (data : List Nat) (endBits : Nat) :
    ∀ (sizes : List Nat) (i k : Nat), k < sizes.length →
      (unpackLoop data endBits i sizes).getD k (some 0)
        = if unpackOff endBits i sizes k + sizes.getD k 0 > endBits then none
          else some (andNot
            (pySliceVal data (unpackOff endBits i sizes k / 8)
              ((unpackOff endBits i sizes k + sizes.getD k 0) / 8)
              >>> (unpackOff endBits i sizes k % 8))
            (0xFF <<< sizes.getD k 0)) := by
  intro sizes
  induction sizes with
  | nil => intro i k hk; simp at hk
  | cons size rest ih =>
    intro i k hk
    cases k with
    | zero =>
      have h0 : unpackOff endBits i (size :: rest) 0 = i := rfl
      rw [h0]
      simp only [List.getD_cons_zero]
      unfold unpackLoop
      split
      · rfl
      · rfl
    | succ k =>
      have hs : unpackOff endBits i (size :: rest) (k + 1)
          = unpackOff endBits (if i + size > endBits then i else i + size) rest k := rfl
      rw [hs]
      unfold unpackLoop
      split
      · next hcond =>
        simp only [List.getD_cons_succ]
        exact ih i k (by simpa using hk)
      · next hcond =>
        simp only [List.getD_cons_succ]
        exact ih (i + size) k (by simpa using hk)

theorem unpackOff_le_endBits (endBits : Nat) :
    ∀ (sizes : List Nat) (i k : Nat), i ≤ endBits →
      unpackOff endBits i sizes k ≤ endBits := by
  intro sizes
  induction sizes with
  | nil => intro i k h; cases k <;> simpa [unpackOff]
  | cons size rest ih =>
    intro i k h
    cases k with
    | zero => simpa [unpackOff]
    | succ k =>
      rw [unpackOff]
      apply ih
      split <;> omega

theorem item_sizes_length : ∀ iw < 2, (item_sizes.getD iw []).length = 17 := by decide

theorem item_sizes_ge7 : ∀ iw < 2, ∀ k < 17, 7 ≤ (item_sizes.getD iw []).getD k 0 := by
  decide

/-- C5 counterexample: for `is_weapon = 0` and the two-byte input `[0, 0]`
the second field (width 17) does not fit and is `None`, yet the fifth field
(width 7) fits in the remaining bits and is present — so an absent field is
*not* followed only by absent fields. -/
theorem c5_counterexample :
    (unpack_item_values 0 [0, 0]).getD 1 (some 0) = none ∧
    (unpack_item_values 0 [0, 0]).getD 4 (some 0) = some 0 := by decide

/-- C5 (amended).  In `unpack_item_values`, when fewer bits remain than a
field's width the field is absent (`None`) and the read position does not
advance; every *subsequent field of width at least as large* is then also
absent.  (A subsequent narrower field may still fit and be present, as the
counterexample shows.) -/
theorem c5_subsequent_absent (is_weapon : Nat) (data : List Nat) (k m : Nat)
    (hkm : k ≤ m)
    (hwidth : (item_sizes.getD is_weapon []).getD k 0
      ≤ (item_sizes.getD is_weapon []).getD m 0)
    (hnone : (unpack_item_values is_weapon data).getD k (some 0) = none) :
    (unpack_item_values is_weapon data).getD m (some 0) = none := by
  unfold unpack_item_values at hnone ⊢
  by_cases hk : k < (item_sizes.getD is_weapon []).length
  case neg =>
    exfalso
    rw [List.getD_eq_default] at hnone
    · exact Option.noConfusion hnone
    · rw [unpackLoop_length]; omega
  case pos =>
  rw [unpackLoop_getD _ _ _ _ _ hk] at hnone
  by_cases hcond : unpackOff ((data.length + 1) * 8) 8 (item_sizes.getD is_weapon []) k
      + (item_sizes.getD is_weapon []).getD k 0 > (data.length + 1) * 8
  case neg =>
    rw [if_neg hcond] at hnone
    exact Option.noConfusion hnone
  case pos =>
  have hoffle : unpackOff ((data.length + 1) * 8) 8 (item_sizes.getD is_weapon []) k
      ≤ (data.length + 1) * 8 :=
    unpackOff_le_endBits _ _ _ _ (by omega)
  have hm : m < (item_sizes.getD is_weapon []).length := by
    by_contra hmc
    push_neg at hmc
    rw [List.getD_eq_default _ _ hmc] at hwidth
    omega
  rw [unpackLoop_getD _ _ _ _ _ hm, if_pos ?_]
  have hmono := unpackOff_mono ((data.length + 1) * 8) (item_sizes.getD is_weapon [])
    8 k m hkm
  omega

/-- Witness for the amended C5: on `[0, 0]` with `is_weapon = 0`, field 1
(width 17) is absent, so field 2 (width 20 ≥ 17) is absent too. -/
theorem c5_subsequent_absent_witness :
    (unpack_item_values 0 [0, 0]).getD 2 (some 0) = none :=
  c5_subsequent_absent 0 [0, 0] 1 2 (by decide) (by decide) (by decide)

/-- C10.  For every `is_weapon` in {0, 1} and every input byte string,
`unpack_item_values` returns exactly 17 entries (one per entry of
`item_sizes[is_weapon]`), and every present entry is strictly below
2 to its field's width. -/
theorem c10_unpack_shape (is_weapon : Nat) (hw : is_weapon < 2) (data : List Nat)
    (hbytes : ∀ b ∈ data, b < 256) :
    (unpack_item_values is_weapon data).length = 17 ∧
    (∀ k v, (unpack_item_values is_weapon data).getD k (some 0) = some v →
      v < 2 ^ ((item_sizes.getD is_weapon []).getD k 0)) := by
  constructor
  · rw [unpack_item_values, unpackLoop_length]
    exact item_sizes_length is_weapon hw
  · intro k v hv
    by_cases hk : k < (item_sizes.getD is_weapon []).length
    case neg =>
      rw [unpack_item_values, List.getD_eq_default] at hv
      · have hv0 : v = 0 := (Option.some.inj hv).symm
        subst hv0
        exact Nat.pos_pow_of_pos _ (by norm_num)
      · rw [unpackLoop_length]; omega
    case pos =>
      rw [unpack_item_values, unpackLoop_getD _ _ _ _ _ hk] at hv
      by_cases hcond : unpackOff ((data.length + 1) * 8) 8 (item_sizes.getD is_weapon []) k
          + (item_sizes.getD is_weapon []).getD k 0 > (data.length + 1) * 8
      case pos =>
        rw [if_pos hcond] at hv
        exact Option.noConfusion hv
      case neg =>
        rw [if_neg hcond] at hv
        have hklt : k < 17 := by
          rw [item_sizes_length is_weapon hw] at hk
          exact hk
        have hsz : 7 ≤ (item_sizes.getD is_weapon []).getD k 0 :=
          item_sizes_ge7 is_weapon hw k hklt
        have hpbytes : ∀ b ∈ (0x20 :: data), b < 256 := by
          intro b hb
          rcases List.mem_cons.mp hb with h | h
          · subst h; norm_num
          · exact hbytes b h
        have hfit : unpackOff ((data.length + 1) * 8) 8 (item_sizes.getD is_weapon []) k
            + (item_sizes.getD is_weapon []).getD k 0 ≤ 8 * (0x20 :: data).length := by
          simp only [List.length_cons]
          omega
        rw [unpack_entry_eq (0x20 :: data) hpbytes _ _ (by omega) hfit] at hv
        have hvv : v = (leVal (0x20 :: data)
            >>> unpackOff ((data.length + 1) * 8) 8 (item_sizes.getD is_weapon []) k)
            % 2 ^ ((item_sizes.getD is_weapon []).getD k 0) := (Option.some.inj hv).symm
        rw [hvv]
        exact Nat.mod_lt _ (Nat.pos_pow_of_pos _ (by norm_num))

/-- Witness for C10: evaluated at `is_weapon = 1`, data `[171, 205, 239]`;
the first 8-bit field decodes to 171 and is below 2^8. -/
theorem c10_unpack_shape_witness :
    (unpack_item_values 1 [171, 205, 239]).length = 17 ∧
    171 < 2 ^ ((item_sizes.getD 1 []).getD 0 0) :=
  ⟨(c10_unpack_shape 1 (by decide) [171, 205, 239] (by decide)).1,
    (c10_unpack_shape 1 (by decide) [171, 205, 239] (by decide)).2 0 171 (by decide)⟩


/-! ### Characterization of `pack_item_values` -/

theorem leVal_set (l : List Nat) (j x : Nat) (hj : j < l.length) :
    leVal (l.set j x) + l.getD j 0 * 2 ^ (8 * j) = leVal l + x * 2 ^ (8 * j) := by
  induction l generalizing j with
  | nil => simp at hj
  | cons b rest ih =>
    cases j with
    | zero => simp [leVal_cons]; ring
    | succ j =>
      have hj2 : j < rest.length := by simpa using hj
      have h8 : (2 : Nat) ^ (8 * (j + 1)) = 256 * 2 ^ (8 * j) := by
        rw [Nat.mul_succ, pow_add]; ring
      simp only [List.set_cons_succ, leVal_cons, List.getD_cons_succ, h8]
      have h := ih j hj2
      nlinarith [h]

theorem leVal_getD (l : List Nat) (hbytes : ∀ b ∈ l, b < 256) (j : Nat) :
    l.getD j 0 = (leVal l / 2 ^ (8 * j)) % 256 := by
  induction l generalizing j with
  | nil => simp [leVal]
  | cons b rest ih =>
    have hb : b < 256 := hbytes b (by simp)
    cases j with
    | zero =>
      simp [leVal_cons]
      omega
    | succ j =>
      have h8 : (2 : Nat) ^ (8 * (j + 1)) = 256 * 2 ^ (8 * j) := by
        rw [Nat.mul_succ, pow_add]; ring
      rw [List.getD_cons_succ, ih (fun x hx => hbytes x (by simp [hx])) j, leVal_cons]
      have hd : (b + 256 * leVal rest) / 2 ^ (8 * (j + 1)) = leVal rest / 2 ^ (8 * j) := by
        rw [h8, ← Nat.div_div_eq_div_mul]
        congr 1
        omega
      rw [hd]

theorem writeLoop_eq (v : Nat) : ∀ (j r : Nat) (buf : List Nat),
    r < 8 → v % 2 ^ r = 0 → (∀ b ∈ buf, b < 256) →
    leVal buf < 2 ^ (8 * j + r) → v < 2 ^ (8 * (buf.length - j)) →
    ∃ buf2, writeLoop v j buf = some buf2 ∧ buf2.length = buf.length ∧
      (∀ b ∈ buf2, b < 256) ∧ leVal buf2 = leVal buf + v * 2 ^ (8 * j) := by
  induction v using Nat.strong_induction_on with
  | _ v ih =>
    intro j r buf hr hlow hbytes hbuf hv
    by_cases hv0 : v = 0
    · subst hv0
      refine ⟨buf, ?_, rfl, hbytes, by ring_nf⟩
      rw [writeLoop, dif_pos rfl]
    · have hj : j < buf.length := by
        by_contra hc
        push_neg at hc
        have hz : buf.length - j = 0 := by omega
        rw [hz] at hv
        simp at hv
        omega
      have hrle : (2 : Nat) ^ r ≤ 128 := by
        calc (2 : Nat) ^ r ≤ 2 ^ 7 := Nat.pow_le_pow_right (by norm_num) (by omega)
          _ = 128 := by norm_num
      have hbj : buf.getD j 0 < 2 ^ r := by
        rw [leVal_getD buf hbytes j]
        have hdivlt : leVal buf / 2 ^ (8 * j) < 2 ^ r := by
          apply Nat.div_lt_of_lt_mul
          rw [← pow_add]
          exact hbuf
        rw [Nat.mod_eq_of_lt (lt_of_lt_of_le hdivlt (by omega))]
        exact hdivlt
      have hvand : v &&& 0xFF = v % 256 := by
        have h255 : (0xFF : Nat) = 2 ^ 8 - 1 := by norm_num
        rw [h255, Nat.and_pow_two_sub_one_eq_mod]
      have hvmodlow : v % 256 % 2 ^ r = 0 := by
        have h256 : (256 : Nat) = 2 ^ 8 := by norm_num
        rw [h256, Nat.mod_mod_of_dvd _ (pow_dvd_pow 2 (by omega))]
        exact hlow
      obtain ⟨t, ht⟩ : (2 : Nat) ^ r ∣ v % 256 := Nat.dvd_of_mod_eq_zero hvmodlow
      obtain ⟨u, hu⟩ : (2 : Nat) ^ r ∣ 256 := by
        have h256 : (256 : Nat) = 2 ^ 8 := by norm_num
        rw [h256]
        exact pow_dvd_pow 2 (by omega)
      have hrpos : 0 < (2 : Nat) ^ r := Nat.pos_pow_of_pos _ (by norm_num)
      have htu : t < u := by
        have h1 : 2 ^ r * t < 2 ^ r * u := by
          rw [← ht, ← hu]
          exact Nat.mod_lt _ (by norm_num)
        exact Nat.lt_of_mul_lt_mul_left h1
      have hvm2 : v % 256 + 2 ^ r ≤ 256 := by
        calc v % 256 + 2 ^ r = 2 ^ r * (t + 1) := by rw [ht]; ring
          _ ≤ 2 ^ r * u := Nat.mul_le_mul_left _ (by omega)
          _ = 256 := hu.symm
      have hsumlt : buf.getD j 0 + v % 256 < 256 := by omega
      have hor : buf.getD j 0 ||| v % 256 = buf.getD j 0 + v % 256 := by
        rw [ht, Nat.lor_comm, ← Nat.mul_add_lt_is_or hbj t]
        ring
      have hget : buf.get ⟨j, hj⟩ = buf.getD j 0 := by
        simp [List.getD_eq_getElem?_getD, List.getElem?_eq_getElem hj]
      have hbuf1eq : buf.set j (buf.get ⟨j, hj⟩ ||| (v &&& 0xFF))
          = buf.set j (buf.getD j 0 + v % 256) := by
        rw [hget, hvand, hor]
      have hbuf1bytes : ∀ b ∈ buf.set j (buf.get ⟨j, hj⟩ ||| (v &&& 0xFF)), b < 256 := by
        rw [hbuf1eq]
        intro b hb
        rcases List.mem_or_eq_of_mem_set hb with h | h
        · exact hbytes b h
        · omega
      have hbuf1len : (buf.set j (buf.get ⟨j, hj⟩ ||| (v &&& 0xFF))).length = buf.length := by
        simp
      have hbuf1val : leVal (buf.set j (buf.get ⟨j, hj⟩ ||| (v &&& 0xFF)))
          = leVal buf + v % 256 * 2 ^ (8 * j) := by
        rw [hbuf1eq]
        have h := leVal_set buf j (buf.getD j 0 + v % 256) hj
        have hexp : leVal buf + (buf.getD j 0 + v % 256) * 2 ^ (8 * j)
            = (leVal buf + v % 256 * 2 ^ (8 * j)) + buf.getD j 0 * 2 ^ (8 * j) := by ring
        rw [hexp] at h
        exact Nat.add_right_cancel h
      have hnewbound : leVal (buf.set j (buf.get ⟨j, hj⟩ ||| (v &&& 0xFF)))
          < 2 ^ (8 * (j + 1) + 0) := by
        rw [hbuf1val]
        have hbufR : leVal buf < 2 ^ (8 * j) * 2 ^ r := by
          rw [← pow_add]
          exact hbuf
        calc leVal buf + v % 256 * 2 ^ (8 * j)
            < 2 ^ (8 * j) * 2 ^ r + v % 256 * 2 ^ (8 * j) := Nat.add_lt_add_right hbufR _
          _ = (2 ^ r + v % 256) * 2 ^ (8 * j) := by ring
          _ ≤ 256 * 2 ^ (8 * j) := Nat.mul_le_mul_right _ (by omega)
          _ = 2 ^ (8 * (j + 1) + 0) := by
              rw [Nat.add_zero, Nat.mul_succ, pow_add]
              norm_num [Nat.mul_comm]
      have hnewfit : v >>> 8
          < 2 ^ (8 * ((buf.set j (buf.get ⟨j, hj⟩ ||| (v &&& 0xFF))).length - (j + 1))) := by
        rw [hbuf1len, Nat.shiftRight_eq_div_pow]
        have hsub : buf.length - j = (buf.length - (j + 1)) + 1 := by omega
        rw [hsub, Nat.mul_succ, pow_add] at hv
        apply Nat.div_lt_of_lt_mul
        rw [Nat.mul_comm]
        exact hv
      have hrec := ih (v >>> 8)
        (by
          rw [Nat.shiftRight_eq_div_pow]
          exact Nat.div_lt_self (Nat.pos_of_ne_zero hv0) (by norm_num))
        (j + 1) 0 (buf.set j (buf.get ⟨j, hj⟩ ||| (v &&& 0xFF)))
        (by norm_num) (Nat.mod_one _) hbuf1bytes (by simpa using hnewbound) hnewfit
      rcases hrec with ⟨buf2, hploop, hlen2, hbytes2, hval2⟩
      refine ⟨buf2, ?_, by rw [hlen2, hbuf1len], hbytes2, ?_⟩
      · rw [writeLoop, dif_neg hv0, dif_pos hj]
        exact hploop
      · rw [hval2, hbuf1val, Nat.shiftRight_eq_div_pow]
        have h8b : (2 : Nat) ^ (8 * (j + 1)) = 256 * 2 ^ (8 * j) := by
          rw [Nat.mul_succ, pow_add]
          norm_num [Nat.mul_comm]
        have hd256 : v / 2 ^ 8 = v / 256 := by norm_num
        rw [h8b, hd256]
        have hsplit : v % 256 + 256 * (v / 256) = v := Nat.mod_add_div v 256
        calc leVal buf + v % 256 * 2 ^ (8 * j) + v / 256 * (256 * 2 ^ (8 * j))
            = leVal buf + (v % 256 + 256 * (v / 256)) * 2 ^ (8 * j) := by ring
          _ = leVal buf + v * 2 ^ (8 * j) := by rw [hsplit]

/-- Validity of the value/width pairs passed through `pack_item_values`'
loop: every value before the first `None` fits in its field's width. -/
def ValidPairs : List (Option Nat × Nat) → Prop
  | [] => True
  | (none, _) :: _ => True
  | (some v, s) :: rest => v < 2 ^ s ∧ ValidPairs rest

/-- Total number of bits written by `pack_item_values`' loop: the sum of
the widths of the fields before the first `None`. -/
def packedBits : List (Option Nat × Nat) → Nat
  | [] => 0
  | (none, _) :: _ => 0
  | (some _, s) :: rest => s + packedBits rest

/-- The packed fields as one number, each field at its bit offset. -/
def packedVal : List (Option Nat × Nat) → Nat
  | [] => 0
  | (none, _) :: _ => 0
  | (some v, s) :: rest => v + 2 ^ s * packedVal rest

theorem packLoop_eq : ∀ (pairs : List (Option Nat × Nat)) (i : Nat) (buf : List Nat),
    ValidPairs pairs → (∀ b ∈ buf, b < 256) → leVal buf < 2 ^ i →
    i + packedBits pairs ≤ 8 * buf.length →
    ∃ buf2, packLoop pairs i buf = some (i + packedBits pairs, buf2) ∧
      buf2.length = buf.length ∧ (∀ b ∈ buf2, b < 256) ∧
      leVal buf2 = leVal buf + packedVal pairs * 2 ^ i := by
  intro pairs
  induction pairs with
  | nil =>
    intro i buf _ hbytes hbuf _
    exact ⟨buf, by simp [packLoop, packedBits], rfl, hbytes, by simp [packedVal]⟩
  | cons p rest ih =>
    rcases p with ⟨v, s⟩
    cases v with
    | none =>
      intro i buf _ hbytes hbuf _
      exact ⟨buf, by simp [packLoop, packedBits], rfl, hbytes, by simp [packedVal]⟩
    | some v =>
      intro i buf hval hbytes hbuf hfit
      obtain ⟨hv, hvalrest⟩ := hval
      rw [packedBits] at hfit
      have hi8 : 8 * (i / 8) + i % 8 = i := by omega
      have hwl := writeLoop_eq (v <<< (i % 8)) (i / 8) (i % 8) buf (by omega)
        (by
          rw [Nat.shiftLeft_eq, Nat.mul_mod_left])
        hbytes
        (by rw [hi8]; exact hbuf)
        (by
          rw [Nat.shiftLeft_eq]
          have hs1 : v * 2 ^ (i % 8) < 2 ^ s * 2 ^ (i % 8) :=
            mul_lt_mul_of_pos_right hv (Nat.pos_pow_of_pos _ (by norm_num))
          have hs2 : (2 : Nat) ^ s * 2 ^ (i % 8) ≤ 2 ^ (8 * (buf.length - i / 8)) := by
            rw [← pow_add]
            exact Nat.pow_le_pow_right (by norm_num) (by omega)
          omega)
      rcases hwl with ⟨buf1, hwlres, hlen1, hbytes1, hval1⟩
      have hbuf1lt : leVal buf1 < 2 ^ (i + s) := by
        rw [hval1, Nat.shiftLeft_eq]
        have h1 : leVal buf < 2 ^ i := hbuf
        have h2 : v * 2 ^ (i % 8) * 2 ^ (8 * (i / 8)) = v * 2 ^ i := by
          rw [Nat.mul_assoc, ← pow_add]
          congr 2
          omega
        rw [h2]
        have h3 : (2 : Nat) ^ (i + s) = 2 ^ i * 2 ^ s := pow_add 2 i s
        have h4 : v * 2 ^ i ≤ (2 ^ s - 1) * 2 ^ i :=
          Nat.mul_le_mul_right _ (by omega)
        have h5 : (2 ^ s - 1) * 2 ^ i + 2 ^ i = 2 ^ s * 2 ^ i := by
          have hp : 0 < (2 : Nat) ^ s := Nat.pos_pow_of_pos _ (by norm_num)
          rw [Nat.sub_one_mul]
          have : (2 : Nat) ^ i ≤ 2 ^ s * 2 ^ i :=
            Nat.le_mul_of_pos_left _ hp
          omega
        have h6 : (2 : Nat) ^ i * 2 ^ s = 2 ^ s * 2 ^ i := Nat.mul_comm _ _
        omega
      have hrec := ih (i + s) buf1 hvalrest hbytes1 hbuf1lt
        (by rw [hlen1]; omega)
      rcases hrec with ⟨buf2, hres2, hlen2, hbytes2, hval2⟩
      refine ⟨buf2, ?_, by rw [hlen2, hlen1], hbytes2, ?_⟩
      · rw [packLoop, hwlres]
        show packLoop rest (i + s) buf1 = some (i + packedBits ((some v, s) :: rest), buf2)
        rw [hres2, packedBits]
        congr 2
        omega
      · rw [hval2, hval1, Nat.shiftLeft_eq, packedVal]
        have h2 : v * 2 ^ (i % 8) * 2 ^ (8 * (i / 8)) = v * 2 ^ i := by
          rw [Nat.mul_assoc, ← pow_add]
          congr 2
          omega
        rw [h2]
        have h3 : (2 : Nat) ^ (i + s) = 2 ^ i * 2 ^ s := pow_add 2 i s
        calc leVal buf + v * 2 ^ i + packedVal rest * 2 ^ (i + s)
            = leVal buf + v * 2 ^ i + packedVal rest * (2 ^ i * 2 ^ s) := by rw [h3]
          _ = leVal buf + (v + 2 ^ s * packedVal rest) * 2 ^ i := by ring

/-- The sentinel padding `pack_item_values` adds when the packed bits end
mid-byte: ones in bit positions `t` up to the end of that byte. -/
def sentVal (t : Nat) : Nat :=
  if t % 8 = 0 then 0 else (2 ^ (8 - t % 8) - 1) * 2 ^ t

theorem packedVal_lt (pairs : List (Option Nat × Nat)) (hval : ValidPairs pairs) :
    packedVal pairs < 2 ^ packedBits pairs := by
  induction pairs with
  | nil => simp [packedVal, packedBits]
  | cons p rest ih =>
    rcases p with ⟨v, s⟩
    cases v with
    | none => simp [packedVal, packedBits]
    | some v =>
      obtain ⟨hv, hvr⟩ := hval
      have hr := ih hvr
      rw [packedVal, packedBits, pow_add]
      have h1 : packedVal rest ≤ 2 ^ packedBits rest - 1 := by omega
      have h2 : 2 ^ s * packedVal rest ≤ 2 ^ s * (2 ^ packedBits rest - 1) :=
        Nat.mul_le_mul_left _ h1
      have h3 : (2 : Nat) ^ s * (2 ^ packedBits rest - 1)
          = 2 ^ s * 2 ^ packedBits rest - 2 ^ s := by
        rw [Nat.mul_sub]
        omega
      have h4 : (2 : Nat) ^ s ≤ 2 ^ s * 2 ^ packedBits rest :=
        Nat.le_mul_of_pos_right _ (Nat.pos_pow_of_pos _ (by norm_num))
      omega

theorem packedBits_zip_le (values : List (Option Nat)) :
    ∀ (sizes : List Nat), packedBits (values.zip sizes) ≤ sizes.sum := by
  induction values with
  | nil => intro sizes; simp [packedBits]
  | cons v rest ih =>
    intro sizes
    cases sizes with
    | nil => simp [packedBits]
    | cons s srest =>
      cases v with
      | none =>
        rw [List.zip_cons_cons]
        simp [packedBits]
      | some v =>
        have h := ih srest
        rw [List.zip_cons_cons, packedBits, List.sum_cons]
        omega

theorem item_sizes_sum : ∀ iw < 2, (item_sizes.getD iw []).sum ≤ 253 := by decide

/-- Full characterization of `pack_item_values` on valid values: it
succeeds, emits `ceil(t/8)` bytes where `t` is the sum of the packed
widths, and those bytes hold the packed fields plus the one-bits sentinel
padding in the final partial byte. -/
theorem pack_item_values_eq (is_weapon : Nat) (hw : is_weapon < 2)
    (values : List (Option Nat))
    (hval : ValidPairs (values.zip (item_sizes.getD is_weapon []))) :
    ∃ out, pack_item_values is_weapon values = some out ∧
      out.length = (packedBits (values.zip (item_sizes.getD is_weapon [])) + 7) / 8 ∧
      (∀ b ∈ out, b < 256) ∧
      leVal out = packedVal (values.zip (item_sizes.getD is_weapon []))
        + sentVal (packedBits (values.zip (item_sizes.getD is_weapon []))) := by
  have ht253 : packedBits (values.zip (item_sizes.getD is_weapon [])) ≤ 253 :=
    le_trans (packedBits_zip_le values _) (item_sizes_sum is_weapon hw)
  have hrep : ∀ b ∈ List.replicate 32 0, b < 256 := by
    intro b hb
    rw [List.eq_of_mem_replicate hb]
    norm_num
  have h0 : leVal (List.replicate 32 0) = 0 := by decide
  obtain ⟨buf, hploop, hblen, hbbytes, hbval⟩ :=
    packLoop_eq (values.zip (item_sizes.getD is_weapon [])) 0 (List.replicate 32 0)
      hval hrep (by rw [h0]; norm_num) (by rw [List.length_replicate]; omega)
  rw [Nat.zero_add] at hploop
  rw [h0, pow_zero, Nat.mul_one, Nat.zero_add] at hbval
  rw [List.length_replicate] at hblen
  have hNlt : leVal buf < 2 ^ packedBits (values.zip (item_sizes.getD is_weapon [])) := by
    rw [hbval]
    exact packedVal_lt _ hval
  set t := packedBits (values.zip (item_sizes.getD is_weapon [])) with htdef
  have hpack : pack_item_values is_weapon values
      = (if t % 8 ≠ 0 then
          if h : t / 8 < buf.length then
            some (List.take ((t + 7) / 8)
              (buf.set (t / 8) (buf.get ⟨t / 8, h⟩ ||| ((0xFF <<< (t % 8)) &&& 0xFF))))
          else none
        else some (List.take ((t + 7) / 8) buf)) := by
    unfold pack_item_values
    rw [hploop]
  rw [hpack]
  by_cases hmod : t % 8 = 0
  · rw [if_neg (by omega)]
    refine ⟨buf.take ((t + 7) / 8), rfl, ?_, ?_, ?_⟩
    · rw [List.length_take, hblen]
      omega
    · exact fun b hb => hbbytes b (List.mem_of_mem_take hb)
    · rw [leVal_take_mod buf hbbytes, hbval, sentVal, if_pos hmod, Nat.add_zero]
      apply Nat.mod_eq_of_lt
      calc packedVal (values.zip (item_sizes.getD is_weapon []))
          < 2 ^ t := hbval ▸ hNlt
        _ ≤ 2 ^ (8 * ((t + 7) / 8)) := Nat.pow_le_pow_right (by norm_num) (by omega)
  · rw [if_pos (by omega)]
    have hj32 : t / 8 < buf.length := by rw [hblen]; omega
    rw [dif_pos hj32]
    have hr1 : 1 ≤ (2 : Nat) ^ (t % 8) := Nat.pos_pow_of_pos _ (by norm_num)
    have hr128 : (2 : Nat) ^ (t % 8) ≤ 128 := by
      calc (2 : Nat) ^ (t % 8) ≤ 2 ^ 7 := Nat.pow_le_pow_right (by norm_num) (by omega)
        _ = 128 := by norm_num
    have hsent : (0xFF <<< (t % 8)) &&& 0xFF = 256 - 2 ^ (t % 8) := by
      have h255 : (0xFF : Nat) = 2 ^ 8 - 1 := by norm_num
      nth_rewrite 2 [h255]
      rw [Nat.and_pow_two_sub_one_eq_mod, Nat.shiftLeft_eq]
      have h28 : (2 : Nat) ^ 8 = 256 := by norm_num
      rw [h28]
      omega
    have hbj : buf.getD (t / 8) 0 < 2 ^ (t % 8) := by
      rw [leVal_getD buf hbbytes]
      have hdivlt : leVal buf / 2 ^ (8 * (t / 8)) < 2 ^ (t % 8) := by
        apply Nat.div_lt_of_lt_mul
        rw [← pow_add]
        calc leVal buf < 2 ^ t := hNlt
          _ ≤ 2 ^ (8 * (t / 8) + t % 8) := Nat.pow_le_pow_right (by norm_num) (by omega)
      rw [Nat.mod_eq_of_lt (lt_of_lt_of_le hdivlt (by omega))]
      exact hdivlt
    have hwdecomp : 256 - 2 ^ (t % 8) = 2 ^ (t % 8) * (2 ^ (8 - t % 8) - 1) := by
      rw [Nat.mul_sub, Nat.mul_one, ← pow_add]
      have : t % 8 + (8 - t % 8) = 8 := by omega
      rw [this]
      norm_num
    have hor : buf.getD (t / 8) 0 ||| (256 - 2 ^ (t % 8))
        = buf.getD (t / 8) 0 + (256 - 2 ^ (t % 8)) := by
      rw [hwdecomp, Nat.lor_comm, ← Nat.mul_add_lt_is_or hbj _]
      ring
    have hget : buf.get ⟨t / 8, hj32⟩ = buf.getD (t / 8) 0 := by
      simp [List.getD_eq_getElem?_getD, List.getElem?_eq_getElem hj32]
    have hseteq : buf.set (t / 8) (buf.get ⟨t / 8, hj32⟩ ||| ((0xFF <<< (t % 8)) &&& 0xFF))
        = buf.set (t / 8) (buf.getD (t / 8) 0 + (256 - 2 ^ (t % 8))) := by
      rw [hget, hsent, hor]
    have hsetbytes : ∀ b ∈ buf.set (t / 8)
        (buf.get ⟨t / 8, hj32⟩ ||| ((0xFF <<< (t % 8)) &&& 0xFF)), b < 256 := by
      rw [hseteq]
      intro b hb
      rcases List.mem_or_eq_of_mem_set hb with h | h
      · exact hbbytes b h
      · omega
    have hsetval : leVal (buf.set (t / 8)
        (buf.get ⟨t / 8, hj32⟩ ||| ((0xFF <<< (t % 8)) &&& 0xFF)))
        = leVal buf + (256 - 2 ^ (t % 8)) * 2 ^ (8 * (t / 8)) := by
      rw [hseteq]
      have h := leVal_set buf (t / 8) (buf.getD (t / 8) 0 + (256 - 2 ^ (t % 8))) hj32
      have hexp : leVal buf + (buf.getD (t / 8) 0 + (256 - 2 ^ (t % 8))) * 2 ^ (8 * (t / 8))
          = (leVal buf + (256 - 2 ^ (t % 8)) * 2 ^ (8 * (t / 8)))
            + buf.getD (t / 8) 0 * 2 ^ (8 * (t / 8)) := by ring
      rw [hexp] at h
      exact Nat.add_right_cancel h
    have hsentval : (256 - 2 ^ (t % 8)) * 2 ^ (8 * (t / 8)) = sentVal t := by
      rw [sentVal, if_neg hmod, hwdecomp]
      rw [Nat.mul_comm (2 ^ (t % 8)) (2 ^ (8 - t % 8) - 1), Nat.mul_assoc, ← pow_add]
      congr 2
      omega
    refine ⟨_, rfl, ?_, ?_, ?_⟩
    · rw [List.length_take, List.length_set, hblen]
      omega
    · exact fun b hb => hsetbytes b (List.mem_of_mem_take hb)
    · rw [leVal_take_mod _ hsetbytes, hsetval, hsentval, hbval]
      apply Nat.mod_eq_of_lt
      have hslt : sentVal t < 2 ^ (8 - t % 8) * 2 ^ t := by
        rw [sentVal, if_neg hmod]
        apply mul_lt_mul_of_pos_right _ (Nat.pos_pow_of_pos _ (by norm_num))
        have hpos : 0 < (2 : Nat) ^ (8 - t % 8) := Nat.pos_pow_of_pos _ (by norm_num)
        omega
      have hsum : packedVal (values.zip (item_sizes.getD is_weapon [])) + sentVal t
          < 2 ^ t + (2 ^ (8 - t % 8) - 1) * 2 ^ t := by
        rw [sentVal, if_neg hmod]
        have := hbval ▸ hNlt
        have hge : 1 ≤ (2 : Nat) ^ (8 - t % 8) - 1 := by
          have : (2 : Nat) ^ 1 ≤ 2 ^ (8 - t % 8) :=
            Nat.pow_le_pow_right (by norm_num) (by omega)
          omega
        omega
      have hcollect : (2 : Nat) ^ t + (2 ^ (8 - t % 8) - 1) * 2 ^ t
          = 2 ^ (8 - t % 8) * 2 ^ t := by
        rw [Nat.sub_one_mul]
        have : (2 : Nat) ^ t ≤ 2 ^ (8 - t % 8) * 2 ^ t :=
          Nat.le_mul_of_pos_left _ (Nat.pos_pow_of_pos _ (by norm_num))
        omega
      have hfin : (2 : Nat) ^ (8 - t % 8) * 2 ^ t ≤ 2 ^ (8 * ((t + 7) / 8)) := by
        rw [← pow_add]
        exact Nat.pow_le_pow_right (by norm_num) (by omega)
      omega

instance instDecValidPairs : (pairs : List (Option Nat × Nat)) → Decidable (ValidPairs pairs)
  | [] => isTrue trivial
  | (none, _) :: _ => isTrue trivial
  | (some v, s) :: rest =>
    have _hd : Decidable (ValidPairs rest) := instDecValidPairs rest
    inferInstanceAs (Decidable (v < 2 ^ s ∧ ValidPairs rest))

theorem packLoop_stop : ∀ (pairs : List (Option Nat × Nat)) (i : Nat) (buf : List Nat),
    packLoop pairs i buf = packLoop (pairs.takeWhile (fun p => p.1.isSome)) i buf := by
  intro pairs
  induction pairs with
  | nil => intro i buf; rfl
  | cons p rest ih =>
    rcases p with ⟨v, s⟩
    cases v with
    | none => intro i buf; rfl
    | some v =>
      intro i buf
      show packLoop ((some v, s) :: rest) i buf
        = packLoop ((some v, s) :: rest.takeWhile (fun p => p.1.isSome)) i buf
      rw [packLoop, packLoop]
      cases hw : writeLoop (v <<< (i % 8)) (i / 8) buf with
      | none => rfl
      | some buf2 =>
        show packLoop rest (i + s) buf2
          = packLoop (rest.takeWhile (fun p => p.1.isSome)) (i + s) buf2
        exact ih (i + s) buf2

theorem takeWhile_zip (values : List (Option Nat)) :
    ∀ (sizes : List Nat),
      (values.zip sizes).takeWhile (fun p => p.1.isSome)
        = (values.takeWhile (fun v => v.isSome)).zip sizes := by
  induction values with
  | nil => intro sizes; rfl
  | cons v rest ih =>
    intro sizes
    cases sizes with
    | nil => cases v <;> simp
    | cons s srest =>
      cases v with
      | none => rfl
      | some v =>
        rw [List.zip_cons_cons]
        show (some v, s) :: (rest.zip srest).takeWhile (fun p => p.1.isSome)
          = ((some v :: rest.takeWhile (fun v => v.isSome)).zip (s :: srest))
        rw [List.zip_cons_cons, ih srest]

/-- C8.  On valid values `pack_item_values` stops packing at the first
`None` (packing the truncated list gives the same bytes), the output
length is exactly `ceil(total_bits / 8)` for `total_bits` the sum of the
packed fields' widths, and when the packed bits end mid-byte the remaining
high bits of the final byte are all ones. -/
theorem c8_pack_output (is_weapon : Nat) (hw : is_weapon < 2)
    (values : List (Option Nat))
    (hval : ValidPairs (values.zip (item_sizes.getD is_weapon []))) :
    pack_item_values is_weapon values
        = pack_item_values is_weapon (values.takeWhile (fun v => v.isSome)) ∧
    ∃ out, pack_item_values is_weapon values = some out ∧
      out.length = (packedBits (values.zip (item_sizes.getD is_weapon [])) + 7) / 8 ∧
      (packedBits (values.zip (item_sizes.getD is_weapon [])) % 8 ≠ 0 →
        out.getD (out.length - 1) 0
            >>> (packedBits (values.zip (item_sizes.getD is_weapon [])) % 8)
          = 2 ^ (8 - packedBits (values.zip (item_sizes.getD is_weapon [])) % 8) - 1) := by
  constructor
  · unfold pack_item_values
    rw [packLoop_stop (values.zip (item_sizes.getD is_weapon [])) 0 (List.replicate 32 0),
      takeWhile_zip]
  · obtain ⟨out, hout, hlen, hbytes, hval2⟩ := pack_item_values_eq is_weapon hw values hval
    refine ⟨out, hout, hlen, ?_⟩
    intro hmod
    set t := packedBits (values.zip (item_sizes.getD is_weapon [])) with htdef
    set N := packedVal (values.zip (item_sizes.getD is_weapon [])) with hNdef
    have hNlt : N < 2 ^ t := packedVal_lt _ hval
    have hceil : (t + 7) / 8 - 1 = t / 8 := by omega
    rw [hlen, hceil, leVal_getD out hbytes, hval2]
    rw [show sentVal t = (2 ^ (8 - t % 8) - 1) * 2 ^ t from by rw [sentVal, if_neg hmod]]
    have hApos : 0 < (2 : Nat) ^ (8 * (t / 8)) := Nat.pos_pow_of_pos _ (by norm_num)
    have h2t : (2 : Nat) ^ t = 2 ^ (8 * (t / 8)) * 2 ^ (t % 8) := by
      rw [← pow_add]
      congr 1
      omega
    have hc : (2 ^ (8 - t % 8) - 1) * 2 ^ (t % 8) = 256 - 2 ^ (t % 8) := by
      rw [Nat.sub_one_mul, ← pow_add]
      have he : 8 - t % 8 + t % 8 = 8 := by omega
      rw [he]
      norm_num
    have hsplit : N + (2 ^ (8 - t % 8) - 1) * 2 ^ t
        = N + ((2 ^ (8 - t % 8) - 1) * 2 ^ (t % 8)) * 2 ^ (8 * (t / 8)) := by
      rw [h2t]
      ring
    rw [hsplit, Nat.add_mul_div_right _ _ hApos]
    have hX : N / 2 ^ (8 * (t / 8)) < 2 ^ (t % 8) := by
      apply Nat.div_lt_of_lt_mul
      rw [← h2t]
      exact hNlt
    have hr1 : 1 ≤ (2 : Nat) ^ (t % 8) := Nat.pos_pow_of_pos _ (by norm_num)
    have hr128 : (2 : Nat) ^ (t % 8) ≤ 128 := by
      calc (2 : Nat) ^ (t % 8) ≤ 2 ^ 7 := Nat.pow_le_pow_right (by norm_num) (by omega)
        _ = 128 := by norm_num
    have hmodid : (N / 2 ^ (8 * (t / 8)) + (2 ^ (8 - t % 8) - 1) * 2 ^ (t % 8)) % 256
        = N / 2 ^ (8 * (t / 8)) + (2 ^ (8 - t % 8) - 1) * 2 ^ (t % 8) := by
      apply Nat.mod_eq_of_lt
      rw [hc]
      omega
    rw [hmodid, Nat.shiftRight_eq_div_pow,
      Nat.add_mul_div_right _ _ (Nat.pos_pow_of_pos (t % 8) (by norm_num)),
      Nat.div_eq_of_lt hX, Nat.zero_add]

/-- Witness for C8 at `is_weapon = 0`, `values = [some 3, some 5]`
(packed widths 8 + 17 = 25 bits, so 4 output bytes, 7 sentinel bits). -/
theorem c8_pack_output_witness :
    pack_item_values 0 [some 3, some 5]
        = pack_item_values 0 ([some 3, some 5].takeWhile (fun v => v.isSome)) ∧
    ∃ out, pack_item_values 0 [some 3, some 5] = some out ∧
      out.length = (packedBits ([some 3, some 5].zip (item_sizes.getD 0 [])) + 7) / 8 ∧
      (packedBits ([some 3, some 5].zip (item_sizes.getD 0 [])) % 8 ≠ 0 →
        out.getD (out.length - 1) 0
            >>> (packedBits ([some 3, some 5].zip (item_sizes.getD 0 [])) % 8)
          = 2 ^ (8 - packedBits ([some 3, some 5].zip (item_sizes.getD 0 [])) % 8) - 1) :=
  c8_pack_output 0 (by decide) [some 3, some 5] (by decide)

theorem writeLoop_none (v : Nat) : ∀ (j : Nat) (buf : List Nat),
    2 ^ (8 * (buf.length - j)) ≤ v → writeLoop v j buf = none := by
  induction v using Nat.strong_induction_on with
  | _ v ih =>
    intro j buf hge
    have hv0 : v ≠ 0 := by
      have : 0 < 2 ^ (8 * (buf.length - j)) := Nat.pos_pow_of_pos _ (by norm_num)
      omega
    rw [writeLoop, dif_neg hv0]
    by_cases hj : j < buf.length
    · rw [dif_pos hj]
      apply ih
      · rw [Nat.shiftRight_eq_div_pow]
        exact Nat.div_lt_self (by omega) (by norm_num)
      · rw [List.length_set, Nat.shiftRight_eq_div_pow]
        have hsub : buf.length - j = (buf.length - (j + 1)) + 1 := by omega
        rw [hsub, Nat.mul_succ, pow_add] at hge
        exact (Nat.le_div_iff_mul_le (by norm_num)).mpr hge
    · rw [dif_neg hj]

theorem pack_item_values_none (iw : Nat) (values : List (Option Nat))
    (h : packLoop (values.zip (item_sizes.getD iw [])) 0 (List.replicate 32 0) = none) :
    pack_item_values iw values = none := by
  unfold pack_item_values
  rw [h]

/-- C9 (amended).  For every `is_weapon` in {0, 1} and every values list in
which each value before the first `None` is below 2 to its field's width,
`pack_item_values` terminates successfully with every write inside the
32-byte buffer.  The precondition is necessary: an oversized value drives
the inner loop past the buffer (a Python `IndexError`, `none` in the
model).  The inner loop can never run forever, though — each iteration
advances the write index, so within `buf.length + 1` steps it either
finishes or indexes past the buffer (this holds for every `Int` value,
negative ones included). -/
theorem c9_pack_safety :
    (∀ is_weapon, is_weapon < 2 → ∀ values,
      ValidPairs (values.zip (item_sizes.getD is_weapon [])) →
      (pack_item_values is_weapon values).isSome) ∧
    (∀ fuel (v : Int) (j : Nat) (buf : List Nat),
      1 ≤ fuel → buf.length + 1 ≤ fuel + j →
      writeLoopInt fuel v j buf ≠ .outOfFuel) ∧
    pack_item_values 0 [some (2 ^ 256)] = none := by
  refine ⟨?_, ?_, ?_⟩
  · intro iw hiw values hval
    obtain ⟨out, hout, -, -, -⟩ := pack_item_values_eq iw hiw values hval
    rw [hout]
    rfl
  · intro fuel
    induction fuel with
    | zero => intro v j buf h1 _; omega
    | succ f ih =>
      intro v j buf h1 h2
      rw [writeLoopInt]
      by_cases hv : v = 0
      · rw [if_pos hv]
        intro h
        cases h
      · rw [if_neg hv]
        by_cases hj : j < buf.length
        · rw [dif_pos hj]
          apply ih
          · omega
          · rw [List.length_set]
            omega
        · rw [dif_neg hj]
          intro h
          cases h
  · apply pack_item_values_none
    have hwl : writeLoop (2 ^ 256 <<< (0 % 8)) (0 / 8) (List.replicate 32 0) = none := by
      apply writeLoop_none
      rw [List.length_replicate, Nat.shiftLeft_eq]
      calc (2 : Nat) ^ (8 * (32 - 0)) = 2 ^ 256 := by norm_num
        _ ≤ 2 ^ 256 * 2 ^ (0 % 8) := Nat.le_mul_of_pos_right _ (by norm_num)
    rw [show [some (2 ^ 256)].zip (item_sizes.getD 0 []) = [(some (2 ^ 256), 8)] from rfl,
      packLoop, hwl]

/-- C9 counterexample to the claimed non-termination: with the canonical
negative value `-1` the inner loop does *not* run forever — it walks off
the 32-byte buffer and raises `IndexError` within 33 steps (the same
result under a bigger step budget confirms it is the loop's real
outcome). -/
theorem c9_counterexample :
    writeLoopInt 33 (-1) 0 (List.replicate 32 0) = .idxError ∧
    writeLoopInt 100 (-1) 0 (List.replicate 32 0) = .idxError := by
  constructor <;> decide

/-- Witness for C9 at concrete inputs: a valid two-field weapon pack
succeeds, and the `Int` loop with value 5 terminates within budget 40. -/
theorem c9_pack_safety_witness :
    (pack_item_values 1 [some 1, some 2]).isSome ∧
    writeLoopInt 40 5 0 (List.replicate 32 0) ≠ .outOfFuel :=
  ⟨c9_pack_safety.1 1 (by decide) [some 1, some 2] (by decide),
    c9_pack_safety.2.1 40 5 0 (List.replicate 32 0) (by decide) (by decide)⟩

/-! ### Item obfuscation layer (`BaseApp.wrap_item` / `unwrap_item`,
savefile.py lines 147-156).  The byte utilities they call
(`borderlands.util.common`) are not among the sources at hand and are
modelled from the specification. -/

/-- The eight bits of one byte, most significant first. -/
def byteToBits (b : Nat) : List Bool :=
  [b.testBit 7, b.testBit 6, b.testBit 5, b.testBit 4,
    b.testBit 3, b.testBit 2, b.testBit 1, b.testBit 0]

/-- A byte string as a bit sequence, MSB-first within each byte. -/
def bytesToBits (l : List Nat) : List Bool :=
  (l.map byteToBits).flatten

/-- One byte from eight bits, most significant first. -/
def bitsToByte (l : List Bool) : Nat :=
  l.foldl (fun a bit => 2 * a + (if bit then 1 else 0)) 0

/-- A bit sequence back to bytes; a trailing group of fewer than eight bits
is dropped (never reached here: all inputs are whole byte strings). -/
def bitsToBytes : List Bool → List Nat
  | b7 :: b6 :: b5 :: b4 :: b3 :: b2 :: b1 :: b0 :: rest =>
      bitsToByte [b7, b6, b5, b4, b3, b2, b1, b0] :: bitsToBytes rest
  | _ => []

/-- Modelled from the spec: `borderlands.util.common.rotate_data_left` is a
bit-level rotation of the whole byte string left by `n` bits. -/
def rotate_data_left (data : List Nat) (n : Nat) : List Nat :=
  bitsToBytes ((bytesToBits data).rotate n)

/-- Modelled from the spec: `borderlands.util.common.rotate_data_right` is a
bit-level rotation of the whole byte string right by `n` bits, i.e. a left
rotation by the complementary amount. -/
def rotate_data_right (data : List Nat) (n : Nat) : List Nat :=
  bitsToBytes ((bytesToBits data).rotate
    ((bytesToBits data).length - n % (bytesToBits data).length))

/-- Modelled from the spec: `borderlands.util.common.xor_data` XORs every
byte with the low byte of the key argument. -/
def xor_data (data : List Nat) (k : Nat) : List Nat :=
  data.map fun b => b ^^^ (k &&& 0xFF)

/-- Modelled from the spec: the checksum is the 16-bit XOR fold of the
packed item bytes (big-endian 16-bit words, a trailing odd byte padded
with zero). -/
def fold16 : List Nat → Nat
  | [] => 0
  | [b] => b <<< 8
  | b1 :: b2 :: rest => ((b1 <<< 8) ||| b2) ^^^ fold16 rest

/-- The two checksum bytes, big-endian. -/
def checksumBytes (item : List Nat) : List Nat :=
  [fold16 item >>> 8, fold16 item &&& 0xFF]

/-- Modelled from the spec (§4.E): `borderlands.util.common.create_body`
prepends the two checksum bytes to the packed item, rotates the result
left by `key & 31` bits, and XORs every byte with `(key >> 5) & 0xFF`. -/
def create_body (item : List Nat) (key : Nat) : List Nat :=
  xor_data (rotate_data_left (checksumBytes item ++ item) (key &&& 31)) (key >>> 5)

/-- `BaseApp.wrap_item` (savefile.py lines 147-150).  `ver` is the
title-specific `item_struct_version` (7 for Borderlands 2).  The signed
32-bit item key is represented by its unsigned bit pattern `key < 2^32`:
the code only uses `key & 31`, `(key >> 5) & 0xFF` and the key's four
big-endian bytes, all of which agree between the two readings. -/
def wrap_item (ver is_weapon : Nat) (values : List (Option Nat)) (key : Nat) :
    Option (List Nat) :=
  (pack_item_values is_weapon values).map fun item =>
    (((is_weapon <<< 7) ||| ver) :: packU32 .big key) ++ create_body item key

/-- `BaseApp.unwrap_item` (savefile.py lines 152-156). -/
def unwrap_item (data : List Nat) : Nat × List (Option Nat) × Nat :=
  let key := readU32BE data 1
  let raw := rotate_data_right (xor_data (data.drop 5) (key >>> 5)) (key &&& 31)
  (data.getD 0 0 >>> 7, unpack_item_values (data.getD 0 0 >>> 7) (raw.drop 2), key)

theorem bytesToBits_cons (b : Nat) (l : List Nat) :
    bytesToBits (b :: l) = byteToBits b ++ bytesToBits l := rfl

theorem length_bytesToBits (l : List Nat) : (bytesToBits l).length = 8 * l.length := by
  induction l with
  | nil => rfl
  | cons b rest ih =>
    rw [bytesToBits_cons, List.length_append, ih]
    simp [byteToBits]
    ring

theorem bitsToByte_byteToBits : ∀ b < 256, bitsToByte (byteToBits b) = b := by decide

theorem byteToBits_bitsToByte (a b c d e f g h : Bool) :
    byteToBits (bitsToByte [a, b, c, d, e, f, g, h]) = [a, b, c, d, e, f, g, h] := by
  revert a b c d e f g h
  decide

theorem bitsToByte8_lt (a b c d e f g h : Bool) :
    bitsToByte [a, b, c, d, e, f, g, h] < 256 := by
  revert a b c d e f g h
  decide

theorem bitsToBytes_bytesToBits (l : List Nat) (h : ∀ b ∈ l, b < 256) :
    bitsToBytes (bytesToBits l) = l := by
  induction l with
  | nil => rfl
  | cons b rest ih =>
    rw [bytesToBits_cons]
    show bitsToByte (byteToBits b) :: bitsToBytes (bytesToBits rest) = b :: rest
    rw [bitsToByte_byteToBits b (h b (by simp)), ih fun x hx => h x (by simp [hx])]

theorem bitsToBytes_spec : ∀ (n : Nat) (bits : List Bool), bits.length = n →
    bits.length % 8 = 0 →
    bytesToBits (bitsToBytes bits) = bits ∧ ∀ b ∈ bitsToBytes bits, b < 256 := by
  intro n
  induction n using Nat.strong_induction_on with
  | _ n ih =>
    intro bits hlen h8
    rcases bits with _ | ⟨b7, _ | ⟨b6, _ | ⟨b5, _ | ⟨b4, _ | ⟨b3, _ | ⟨b2, _ |
      ⟨b1, _ | ⟨b0, rest⟩⟩⟩⟩⟩⟩⟩⟩
    · exact ⟨rfl, by simp [bitsToBytes]⟩
    · simp at h8
    · simp at h8
    · simp at h8
    · simp at h8
    · simp at h8
    · simp at h8
    · simp at h8
    · have hrl : rest.length + 8 = n := by simpa using hlen
      have hr8 : rest.length % 8 = 0 := by
        simp at h8
        omega
      have hn8 : 8 ≤ n := by omega
      obtain ⟨hrec, hrecb⟩ := ih (n - 8) (by omega) rest (by omega) hr8
      constructor
      · show bytesToBits (bitsToByte [b7, b6, b5, b4, b3, b2, b1, b0]
            :: bitsToBytes rest) = _
        rw [bytesToBits_cons, byteToBits_bitsToByte, hrec]
        rfl
      · intro b hb
        rcases List.mem_cons.mp hb with h | h
        · rw [h]; exact bitsToByte8_lt _ _ _ _ _ _ _ _
        · exact hrecb b h

theorem rotate_inv (l : List Bool) (n : Nat) :
    (l.rotate n).rotate (l.length - n % l.length) = l := by
  rcases Nat.eq_zero_or_pos l.length with hL | hL
  · rw [List.length_eq_zero.mp hL]
    rfl
  · rw [List.rotate_rotate]
    have hmod : n % l.length < l.length := Nat.mod_lt _ hL
    have h0 : (n + (l.length - n % l.length)) % l.length = 0 := by
      rcases Nat.eq_zero_or_pos (n % l.length) with hr | hr
      · rw [hr, Nat.sub_zero, Nat.add_mod_right, hr]
      · rw [Nat.add_mod, Nat.mod_eq_of_lt (a := l.length - n % l.length) (by omega)]
        have hsum : n % l.length + (l.length - n % l.length) = l.length := by omega
        rw [hsum, Nat.mod_self]
    rw [← List.rotate_mod, h0, List.rotate_zero]

theorem xor_data_xor_data (data : List Nat) (k : Nat) :
    xor_data (xor_data data k) k = data := by
  induction data with
  | nil => rfl
  | cons b rest ih =>
    show ((b ^^^ (k &&& 0xFF)) ^^^ (k &&& 0xFF)) :: xor_data (xor_data rest k) k
      = b :: rest
    rw [ih, Nat.xor_assoc, Nat.xor_self, Nat.xor_zero]

theorem xor_data_lt (data : List Nat) (k : Nat) (h : ∀ b ∈ data, b < 256) :
    ∀ b ∈ xor_data data k, b < 256 := by
  intro b hb
  rcases List.mem_map.mp hb with ⟨a, ha, rfl⟩
  have h1 : a < 2 ^ 8 := h a ha
  have h2 : k &&& 0xFF < 2 ^ 8 := by
    have := Nat.and_le_right (n := k) (m := 0xFF)
    omega
  exact Nat.xor_lt_two_pow h1 h2

theorem length_xor_data (data : List Nat) (k : Nat) :
    (xor_data data k).length = data.length := by
  simp [xor_data]

/-- Undoing `create_body`: XOR with the same key byte, then rotate right by
the same amount, restores the checksum-prefixed item bytes. -/
theorem create_body_unwrap (item : List Nat) (key : Nat) (hb : ∀ b ∈ item, b < 256)
    (hck : ∀ b ∈ checksumBytes item, b < 256) :
    rotate_data_right (xor_data (create_body item key) (key >>> 5)) (key &&& 31)
      = checksumBytes item ++ item := by
  unfold create_body
  rw [xor_data_xor_data]
  unfold rotate_data_left rotate_data_right
  have hz : ∀ b ∈ checksumBytes item ++ item, b < 256 := by
    intro b hbm
    rcases List.mem_append.mp hbm with h | h
    · exact hck b h
    · exact hb b h
  have hlen8 : ((bytesToBits (checksumBytes item ++ item)).rotate (key &&& 31)).length % 8
      = 0 := by
    rw [List.length_rotate, length_bytesToBits]
    omega
  obtain ⟨hrt, _⟩ := bitsToBytes_spec _ _ rfl hlen8
  rw [hrt, List.length_rotate, length_bytesToBits, ← length_bytesToBits _]
  rw [rotate_inv]
  exact bitsToBytes_bytesToBits _ hz

theorem fold16_lt (item : List Nat) (h : ∀ b ∈ item, b < 256) :
    fold16 item < 2 ^ 16 := by
  induction item using fold16.induct with
  | case1 => simp [fold16]
  | case2 b =>
    have hb : b < 256 := h b (by simp)
    rw [fold16, Nat.shiftLeft_eq]
    omega
  | case3 b1 b2 rest ih =>
    have h1 : b1 < 256 := h b1 (by simp)
    have h2 : b2 < 256 := h b2 (by simp)
    have hr : fold16 rest < 2 ^ 16 := ih fun x hx => h x (by simp [hx])
    rw [fold16]
    apply Nat.xor_lt_two_pow _ hr
    apply Nat.or_lt_two_pow
    · rw [Nat.shiftLeft_eq]
      omega
    · omega

theorem checksumBytes_lt (item : List Nat) (h : ∀ b ∈ item, b < 256) :
    ∀ b ∈ checksumBytes item, b < 256 := by
  have hf := fold16_lt item h
  intro b hb
  rcases List.mem_cons.mp hb with h1 | h1
  · rw [h1]
    have := shiftRight_lt (fold16 item) 8 8 (by omega)
    omega
  · rcases List.mem_cons.mp h1 with h2 | h2
    · rw [h2]
      have := Nat.and_le_right (n := fold16 item) (m := 0xFF)
      omega
    · simp at h2

theorem take_sum_succ : ∀ (l : List Nat) (k : Nat), k < l.length →
    (l.take (k + 1)).sum = (l.take k).sum + l.getD k 0 := by
  intro l
  induction l with
  | nil => intro k hk; simp at hk
  | cons a rest ih =>
    intro k hk
    cases k with
    | zero => simp
    | succ k =>
      rw [List.take_succ_cons, List.take_succ_cons, List.sum_cons, List.sum_cons,
        List.getD_cons_succ, ih k (by simpa using hk)]
      ring

theorem take_sum_mono (l : List Nat) (a b : Nat) (h : a ≤ b) :
    (l.take a).sum ≤ (l.take b).sum := by
  have hsplit := List.sum_take_add_sum_drop (l.take b) a
  rw [List.take_take, Nat.min_eq_left h] at hsplit
  omega

/-- When every field up to `k` fits, the `unpack_item_values` read offset
at field `k` is the start offset plus the widths of the first `k` fields. -/
theorem unpackOff_all_fit : ∀ (sizes : List Nat) (k i endB : Nat),
    k ≤ sizes.length →
    (∀ j, j < k → i + (sizes.take j).sum + sizes.getD j 0 ≤ endB) →
    unpackOff endB i sizes k = i + (sizes.take k).sum := by
  intro sizes
  induction sizes with
  | nil =>
    intro k i endB hk _
    have hk0 : k = 0 := by simpa using hk
    subst hk0
    simp [unpackOff]
  | cons s rest ih =>
    intro k i endB hk hfit
    cases k with
    | zero => simp [unpackOff]
    | succ k =>
      have h0 := hfit 0 (by omega)
      simp at h0
      rw [unpackOff, if_neg (by omega)]
      have hrec := ih k (i + s) endB (by simpa using hk) ?_
      · rw [hrec, List.take_succ_cons, List.sum_cons]
        ring
      · intro j hj
        have hj1 := hfit (j + 1) (by omega)
        rw [List.take_succ_cons, List.sum_cons, List.getD_cons_succ] at hj1
        omega

/-- For a list of present values, the total packed width is the sum of the
first `vs.length` field widths. -/
theorem packedBits_all_some : ∀ (vs : List (Option Nat)) (sizes : List Nat),
    (∀ v ∈ vs, v.isSome) →
    packedBits (vs.zip sizes) = (sizes.take vs.length).sum := by
  intro vs
  induction vs with
  | nil => intro sizes _; simp [packedBits]
  | cons v rest ih =>
    intro sizes hall
    cases sizes with
    | nil => simp [packedBits]
    | cons s srest =>
      cases v with
      | none =>
        have := hall none (by simp)
        simp at this
      | some v =>
        rw [List.zip_cons_cons, packedBits, List.length_cons, List.take_succ_cons,
          List.sum_cons, ih srest fun x hx => hall x (by simp [hx])]

/-- Digit extraction from the packed value: the bits of field `k` start at
the sum of the earlier widths and hold exactly that field's value. -/
theorem packedVal_digit : ∀ (vs : List (Option Nat)) (sizes : List Nat) (k : Nat),
    (∀ v ∈ vs, v.isSome) → ValidPairs (vs.zip sizes) →
    k < vs.length → k < sizes.length →
    (packedVal (vs.zip sizes) >>> (sizes.take k).sum) % 2 ^ sizes.getD k 0
      = (vs.getD k (some 0)).getD 0 := by
  intro vs
  induction vs with
  | nil => intro sizes k _ _ hk _; simp at hk
  | cons v rest ih =>
    intro sizes k hall hval hk hks
    cases sizes with
    | nil => simp at hks
    | cons s srest =>
      cases v with
      | none =>
        have := hall none (by simp)
        simp at this
      | some v =>
        rw [List.zip_cons_cons] at hval
        obtain ⟨hv, hvr⟩ := hval
        have hspos : (0 : Nat) < 2 ^ s := Nat.pos_pow_of_pos _ (by norm_num)
        cases k with
        | zero =>
          rw [List.zip_cons_cons]
          show (packedVal ((some v, s) :: rest.zip srest) >>> (List.take 0 (s :: srest)).sum)
              % 2 ^ (s :: srest).getD 0 0 = ((some v :: rest).getD 0 (some 0)).getD 0
          rw [packedVal]
          simp only [List.take_zero, List.sum_nil, Nat.shiftRight_zero,
            List.getD_cons_zero]
          rw [Nat.add_mul_mod_self_left, Nat.mod_eq_of_lt hv]
          rfl
        | succ k =>
          rw [List.zip_cons_cons]
          show (packedVal ((some v, s) :: rest.zip srest)
              >>> (List.take (k + 1) (s :: srest)).sum) % 2 ^ (s :: srest).getD (k + 1) 0
            = ((some v :: rest).getD (k + 1) (some 0)).getD 0
          rw [packedVal, List.take_succ_cons, List.sum_cons, List.getD_cons_succ,
            List.getD_cons_succ]
          have hdiv : (v + 2 ^ s * packedVal (rest.zip srest)) / 2 ^ s
              = packedVal (rest.zip srest) := by
            rw [Nat.add_mul_div_left _ _ hspos, Nat.div_eq_of_lt hv, Nat.zero_add]
          rw [Nat.shiftRight_eq_div_pow, pow_add, ← Nat.div_div_eq_div_mul, hdiv,
            ← Nat.shiftRight_eq_div_pow]
          exact ih srest k (fun x hx => hall x (by simp [hx])) hvr (by simpa using hk)
            (by simpa using hks)

/-- After the packed bits end, fewer padding bits than any field's width
remain in the final byte: no later field of the row fits again.  Checked
for every row and every stopping position. -/
theorem item_sizes_no_refit : ∀ iw < 2, ∀ m < 17,
    8 * ((((item_sizes.getD iw []).take m).sum + 7) / 8)
      < ((item_sizes.getD iw []).take m).sum + (item_sizes.getD iw []).getD m 0 := by
  decide

theorem sent_elim (N c T Tk sk : Nat) (h : Tk + sk ≤ T) :
    ((N + c * 2 ^ T) >>> Tk) % 2 ^ sk = (N >>> Tk) % 2 ^ sk := by
  rw [Nat.shiftRight_eq_div_pow, Nat.shiftRight_eq_div_pow]
  have hc : c * 2 ^ T = (c * 2 ^ (T - Tk)) * 2 ^ Tk := by
    rw [mul_assoc, ← pow_add, Nat.sub_add_cancel (by omega)]
  rw [hc, Nat.add_mul_div_right _ _ (Nat.pos_pow_of_pos _ (by norm_num))]
  obtain ⟨u, hu⟩ : (2 : Nat) ^ sk ∣ c * 2 ^ (T - Tk) :=
    Dvd.dvd.mul_left (pow_dvd_pow 2 (by omega)) c
  rw [hu, Nat.add_mul_mod_self_left]

theorem some_getD_of_isSome (o : Option Nat) (h : o.isSome) : some (o.getD 0) = o := by
  cases o
  · simp at h
  · rfl

theorem getD_mem_of_lt (l : List (Option Nat)) (k : Nat) (hk : k < l.length) :
    l.getD k (some 0) ∈ l := by
  rw [List.getD_eq_getElem?_getD, List.getElem?_eq_getElem hk]
  simp [List.getElem_mem hk]

/-- Entries of `unpack_item_values` applied to a `pack_item_values` output:
every field that was packed is recovered exactly, and the first field after
the packed prefix (if any) comes out `None`, because fewer padding bits
than its width remain. -/
theorem unpack_entries_gen (sizes : List Nat) (vs : List (Option Nat))
    (hall : ∀ v ∈ vs, v.isSome)
    (hval : ValidPairs (vs.zip sizes))
    (hsz1 : ∀ k, k < sizes.length → 1 ≤ sizes.getD k 0)
    (hrefit : vs.length < sizes.length →
      8 * (((sizes.take vs.length).sum + 7) / 8)
        < (sizes.take vs.length).sum + sizes.getD vs.length 0)
    (out : List Nat)
    (holen : out.length = (packedBits (vs.zip sizes) + 7) / 8)
    (hobytes : ∀ b ∈ out, b < 256)
    (hoval : leVal out = packedVal (vs.zip sizes) + sentVal (packedBits (vs.zip sizes))) :
    (∀ k, k < vs.length → k < sizes.length →
      (unpackLoop (0x20 :: out) ((out.length + 1) * 8) 8 sizes).getD k (some 0)
        = vs.getD k (some 0)) ∧
    (vs.length < sizes.length →
      (unpackLoop (0x20 :: out) ((out.length + 1) * 8) 8 sizes).getD vs.length (some 0)
        = none) := by
  have hT : packedBits (vs.zip sizes) = (sizes.take vs.length).sum :=
    packedBits_all_some vs sizes hall
  have hendB : (out.length + 1) * 8 = 8 + 8 * ((packedBits (vs.zip sizes) + 7) / 8) := by
    rw [holen]
    ring
  have hfit : ∀ j, j < vs.length → j < sizes.length →
      8 + (sizes.take j).sum + sizes.getD j 0 ≤ (out.length + 1) * 8 := by
    intro j hj hjs
    have hsucc : (sizes.take (j + 1)).sum = (sizes.take j).sum + sizes.getD j 0 :=
      take_sum_succ sizes j hjs
    have hmono : (sizes.take (j + 1)).sum ≤ (sizes.take vs.length).sum :=
      take_sum_mono sizes (j + 1) vs.length (by omega)
    rw [hendB, hT]
    omega
  have hdatabytes : ∀ b ∈ (0x20 :: out), b < 256 := by
    intro b hb
    rcases List.mem_cons.mp hb with h | h
    · omega
    · exact hobytes b h
  obtain ⟨c, hc⟩ : ∃ c, sentVal (packedBits (vs.zip sizes))
      = c * 2 ^ packedBits (vs.zip sizes) := by
    unfold sentVal
    split
    · exact ⟨0, by ring⟩
    · exact ⟨_, rfl⟩
  constructor
  · intro k hk hks
    rw [unpackLoop_getD (0x20 :: out) ((out.length + 1) * 8) sizes 8 k hks]
    have hoff : unpackOff ((out.length + 1) * 8) 8 sizes k = 8 + (sizes.take k).sum :=
      unpackOff_all_fit sizes k 8 _ (by omega)
        (fun j hj => hfit j (by omega) (by omega))
    rw [hoff, if_neg (by have := hfit k hk hks; omega)]
    have hfit2 : 8 + (sizes.take k).sum + sizes.getD k 0 ≤ 8 * (0x20 :: out).length := by
      have := hfit k hk hks
      rw [List.length_cons]
      omega
    rw [unpack_entry_eq (0x20 :: out) hdatabytes (8 + (sizes.take k).sum)
      (sizes.getD k 0) (hsz1 k hks) hfit2]
    rw [leVal_cons 0x20 out]
    have hshift : (0x20 + 256 * leVal out) >>> (8 + (sizes.take k).sum)
        = leVal out >>> (sizes.take k).sum := by
      rw [Nat.shiftRight_eq_div_pow, Nat.shiftRight_eq_div_pow, pow_add,
        ← Nat.div_div_eq_div_mul]
      congr 1
      rw [show (2 : Nat) ^ 8 = 256 from by norm_num,
        Nat.add_mul_div_left _ _ (by norm_num : (0 : Nat) < 256)]
      norm_num
    rw [hshift, hoval, hc]
    have hTk : (sizes.take k).sum + sizes.getD k 0 ≤ packedBits (vs.zip sizes) := by
      have hsucc := take_sum_succ sizes k hks
      have hmono := take_sum_mono sizes (k + 1) vs.length (by omega)
      rw [hT]
      omega
    rw [sent_elim _ c _ _ _ hTk,
      packedVal_digit vs sizes k hall hval hk hks]
    exact some_getD_of_isSome _ (hall _ (getD_mem_of_lt vs k hk))
  · intro hm
    rw [unpackLoop_getD (0x20 :: out) ((out.length + 1) * 8) sizes 8 vs.length hm]
    have hoff : unpackOff ((out.length + 1) * 8) 8 sizes vs.length
        = 8 + (sizes.take vs.length).sum :=
      unpackOff_all_fit sizes vs.length 8 _ (by omega)
        (fun j hj => hfit j hj (by omega))
    rw [hoff, if_pos (by have := hrefit hm; rw [hendB, hT]; omega)]

theorem pack_item_values_takeWhile (iw : Nat) (values : List (Option Nat)) :
    pack_item_values iw values
      = pack_item_values iw (values.takeWhile fun v => v.isSome) := by
  unfold pack_item_values
  rw [packLoop_stop, takeWhile_zip]

theorem ValidPairs_takeWhile (q : Option Nat × Nat → Bool) :
    ∀ pairs, ValidPairs pairs → ValidPairs (pairs.takeWhile q) := by
  intro pairs
  induction pairs with
  | nil => intro _; trivial
  | cons p rest ih =>
    intro hval
    rw [List.takeWhile_cons]
    split
    · rcases p with ⟨v, s⟩
      cases v with
      | none => trivial
      | some v =>
        obtain ⟨hv, hvr⟩ := hval
        exact ⟨hv, ih hvr⟩
    · trivial

theorem takeWhile_eq_take : ∀ (l : List (Option Nat)) (M : Nat),
    M ≤ l.length →
    (∀ k, k < M → (l.getD k (some 0)).isSome) →
    (M = l.length ∨ l.getD M (some 0) = none) →
    l.takeWhile (fun v => v.isSome) = l.take M := by
  intro l
  induction l with
  | nil =>
    intro M hM _ _
    simp
  | cons a rest ih =>
    intro M hM hsome hend
    cases M with
    | zero =>
      rcases hend with h | h
      · simp at h
      · rw [List.getD_cons_zero] at h
        subst h
        simp
    | succ M =>
      have ha : a.isSome := by
        have := hsome 0 (by omega)
        rwa [List.getD_cons_zero] at this
      rw [List.take_succ_cons, List.takeWhile_cons]
      simp only [ha, if_true]
      congr 1
      apply ih M (by simpa using hM)
      · intro k hk
        have := hsome (k + 1) (by omega)
        rwa [List.getD_cons_succ] at this
      · rcases hend with h | h
        · left
          simpa using h
        · right
          rwa [List.getD_cons_succ] at h

theorem zip_take_left : ∀ (xs : List (Option Nat)) (ys : List Nat),
    (xs.take ys.length).zip ys = xs.zip ys := by
  intro xs
  induction xs with
  | nil => intro ys; simp
  | cons x rest ih =>
    intro ys
    cases ys with
    | nil => simp
    | cons y yrest =>
      rw [List.length_cons, List.take_succ_cons, List.zip_cons_cons, List.zip_cons_cons,
        ih yrest]

theorem unpack_item_values_length (iw : Nat) (hw : iw < 2) (data : List Nat) :
    (unpack_item_values iw data).length = 17 := by
  unfold unpack_item_values
  rw [unpackLoop_length, item_sizes_length iw hw]

theorem getD_eq_of_lt (l : List (Option Nat)) (k : Nat) (hk : k < l.length) :
    l.getD k (some 0) = l[k] := by
  rw [List.getD_eq_getElem?_getD, List.getElem?_eq_getElem hk]
  rfl

/-- Re-packing the unpacked fields of a packed output reproduces the
output byte-for-byte, for an all-present value list. -/
theorem pack_unpack_pack_some (iw : Nat) (hw : iw < 2) (vs : List (Option Nat))
    (hall : ∀ v ∈ vs, v.isSome)
    (hval : ValidPairs (vs.zip (item_sizes.getD iw [])))
    (out : List Nat) (hout : pack_item_values iw vs = some out) :
    pack_item_values iw (unpack_item_values iw out) = some out := by
  have hlen17 : (item_sizes.getD iw []).length = 17 := item_sizes_length iw hw
  obtain ⟨out', hps, holen, hobytes, hoval⟩ := pack_item_values_eq iw hw vs hval
  rw [hout] at hps
  injection hps with hps
  subst hps
  obtain ⟨hent, hnone⟩ := unpack_entries_gen (item_sizes.getD iw []) vs hall hval
    (fun k hk => by have := item_sizes_ge7 iw hw k (by omega); omega)
    (fun hm => item_sizes_no_refit iw hw vs.length (by omega))
    out holen hobytes hoval
  have hent' : ∀ k, k < vs.length → k < 17 →
      (unpack_item_values iw out).getD k (some 0) = vs.getD k (some 0) := by
    intro k hk hk17
    exact hent k hk (by omega)
  have hnone' : vs.length < 17 →
      (unpack_item_values iw out).getD vs.length (some 0) = none := by
    intro hm
    exact hnone (by omega)
  have hFlen : (unpack_item_values iw out).length = 17 :=
    unpack_item_values_length iw hw out
  rw [pack_item_values_takeWhile iw (unpack_item_values iw out)]
  have htw : (unpack_item_values iw out).takeWhile (fun v => v.isSome)
      = (unpack_item_values iw out).take (min vs.length 17) := by
    apply takeWhile_eq_take _ _ (by omega)
    · intro k hk
      rw [hent' k (by omega) (by omega)]
      exact hall _ (getD_mem_of_lt vs k (by omega))
    · rcases Nat.lt_or_ge vs.length 17 with h | h
      · right
        rw [show min vs.length 17 = vs.length by omega]
        exact hnone' h
      · left
        omega
  have htake : (unpack_item_values iw out).take (min vs.length 17)
      = vs.take (min vs.length 17) := by
    apply List.ext_getElem
    · rw [List.length_take, List.length_take, hFlen]
      omega
    · intro i h1 h2
      rw [List.length_take, hFlen] at h1
      have he := hent' i (by omega) (by omega)
      rw [getD_eq_of_lt _ _ (by omega), getD_eq_of_lt _ _ (by omega)] at he
      rw [List.getElem_take, List.getElem_take]
      exact he
  rw [htw, htake]
  rcases Nat.lt_or_ge vs.length 17 with h | h
  · rw [show min vs.length 17 = vs.length by omega, List.take_length]
    exact hout
  · rw [show min vs.length 17 = 17 by omega]
    have hz : (vs.take 17).zip (item_sizes.getD iw []) = vs.zip (item_sizes.getD iw []) := by
      rw [show (17 : Nat) = (item_sizes.getD iw []).length from hlen17.symm]
      exact zip_take_left vs _
    show pack_item_values iw (vs.take 17) = some out
    unfold pack_item_values
    rw [hz]
    exact hout

/-- Re-packing the unpacked fields of a packed output reproduces the
output byte-for-byte. -/
theorem pack_unpack_pack (iw : Nat) (hw : iw < 2) (values : List (Option Nat))
    (hval : ValidPairs (values.zip (item_sizes.getD iw [])))
    (out : List Nat) (hout : pack_item_values iw values = some out) :
    pack_item_values iw (unpack_item_values iw out) = some out := by
  rw [pack_item_values_takeWhile] at hout
  apply pack_unpack_pack_some iw hw _ _ _ out hout
  · intro v hv
    exact List.mem_takeWhile_imp hv
  · rw [← takeWhile_zip]
    exact ValidPairs_takeWhile _ _ hval

/-- Unwrapping a wrapped item recovers the header fields and unpacks the
packed item bytes. -/
theorem unwrap_wrap_item (ver iw key : Nat) (item : List Nat)
    (hver : ver < 128) (hkey : key < 2 ^ 32)
    (hbytes : ∀ b ∈ item, b < 256) :
    unwrap_item ((((iw <<< 7) ||| ver) :: packU32 .big key) ++ create_body item key)
      = (iw, unpack_item_values iw item, key) := by
  have hck := checksumBytes_lt item hbytes
  show unwrap_item (((iw <<< 7) ||| ver)
      :: (packU32 .big key ++ create_body item key)) = _
  have hkeyread : readU32BE (((iw <<< 7) ||| ver)
      :: (packU32 .big key ++ create_body item key)) 1 = key := by
    show readU32BE (packU32 .big key ++ create_body item key) 0 = key
    exact readU32BE_packU32 key hkey _
  have hheadval : ((iw <<< 7) ||| ver) >>> 7 = iw := by
    have h1 : iw <<< 7 = 2 ^ 7 * iw := by
      rw [Nat.shiftLeft_eq]
      ring
    have h2 : 2 ^ 7 * iw + ver = 2 ^ 7 * iw ||| ver := Nat.mul_add_lt_is_or hver iw
    rw [h1, ← h2, Nat.shiftRight_eq_div_pow]
    have h128 : (2 : Nat) ^ 7 = 128 := by norm_num
    rw [h128]
    omega
  simp only [unwrap_item, hkeyread, List.getD_cons_zero, List.drop_succ_cons,
    hheadval]
  rw [List.drop_left' (length_packU32 .big key),
    create_body_unwrap item key hbytes hck,
    List.drop_left' (show (checksumBytes item).length = 2 from rfl)]

/-- C2.  For an item byte string `x` produced by `wrap_item` from valid
field values (the form of every raw item in a real save): unwrapping `x`
recovers `is_weapon` and the key, re-wrapping the unwrapped fields with the
same key reproduces `x` byte-for-byte, and re-wrapping them with any other
32-bit key yields a byte string different from `x` whose own unwrap yields
the same fields. -/
theorem c2_item_roundtrip (ver iw key key2 : Nat) (values : List (Option Nat))
    (x : List Nat)
    (hver : ver < 128) (hw : iw < 2)
    (hval : ValidPairs (values.zip (item_sizes.getD iw [])))
    (hkey : key < 2 ^ 32) (hkey2 : key2 < 2 ^ 32) (hne : key2 ≠ key)
    (hx : wrap_item ver iw values key = some x) :
    (unwrap_item x).1 = iw ∧ (unwrap_item x).2.2 = key ∧
    wrap_item ver iw (unwrap_item x).2.1 key = some x ∧
    wrap_item ver iw (unwrap_item x).2.1 key2 ≠ some x ∧
    (wrap_item ver iw (unwrap_item x).2.1 key2).map (fun y => (unwrap_item y).2.1)
      = some (unwrap_item x).2.1 := by
  obtain ⟨item, hitem, hxeq⟩ : ∃ item, pack_item_values iw values = some item ∧
      x = (((iw <<< 7) ||| ver) :: packU32 .big key) ++ create_body item key := by
    unfold wrap_item at hx
    cases hp : pack_item_values iw values with
    | none =>
      rw [hp] at hx
      simp at hx
    | some item =>
      rw [hp] at hx
      simp at hx
      exact ⟨item, rfl, hx.symm⟩
  obtain ⟨out', hps, _, hobytes, _⟩ := pack_item_values_eq iw hw values hval
  rw [hitem] at hps
  injection hps with hps
  subst hps
  subst hxeq
  have huw := unwrap_wrap_item ver iw key item hver hkey hobytes
  rw [huw]
  have hproj1 : ((iw, unpack_item_values iw item, key)
      : Nat × List (Option Nat) × Nat).2.1 = unpack_item_values iw item := rfl
  rw [hproj1]
  have hpk := pack_unpack_pack iw hw values hval item hitem
  refine ⟨rfl, rfl, ?_, ?_, ?_⟩
  · unfold wrap_item
    rw [hpk]
    rfl
  · unfold wrap_item
    rw [hpk]
    intro hcontra
    simp only [Option.map_some'] at hcontra
    injection hcontra with hcontra
    have h1 : readU32BE ((((iw <<< 7) ||| ver) :: packU32 .big key2)
        ++ create_body item key2) 1 = key2 := by
      show readU32BE (packU32 .big key2 ++ create_body item key2) 0 = key2
      exact readU32BE_packU32 key2 hkey2 _
    have h2 : readU32BE ((((iw <<< 7) ||| ver) :: packU32 .big key)
        ++ create_body item key) 1 = key := by
      show readU32BE (packU32 .big key ++ create_body item key) 0 = key
      exact readU32BE_packU32 key hkey _
    rw [hcontra, h2] at h1
    exact hne h1.symm
  · unfold wrap_item
    rw [hpk]
    simp only [Option.map_some']
    rw [unwrap_wrap_item ver iw key2 item hver hkey2 hobytes]

/-- Witness for C2 at concrete inputs: the empty value list wrapped for a
weapon with key 3, re-keyed to 5. -/
theorem c2_item_roundtrip_witness :
    (unwrap_item [135, 0, 0, 0, 3, 0, 0]).1 = 1 ∧
    (unwrap_item [135, 0, 0, 0, 3, 0, 0]).2.2 = 3 ∧
    wrap_item 7 1 (unwrap_item [135, 0, 0, 0, 3, 0, 0]).2.1 3
      = some [135, 0, 0, 0, 3, 0, 0] ∧
    wrap_item 7 1 (unwrap_item [135, 0, 0, 0, 3, 0, 0]).2.1 5
      ≠ some [135, 0, 0, 0, 3, 0, 0] ∧
    (wrap_item 7 1 (unwrap_item [135, 0, 0, 0, 3, 0, 0]).2.1 5).map
        (fun y => (unwrap_item y).2.1)
      = some (unwrap_item [135, 0, 0, 0, 3, 0, 0]).2.1 :=
  c2_item_roundtrip 7 1 3 5 [] [135, 0, 0, 0, 3, 0, 0] (by decide) (by decide)
    (by decide) (by decide) (by decide) (by decide) (by decide)

/-! ### Challenge-overflow repair (`BaseApp._fix_challenge_overflow`,
savefile.py lines 333-347).  The decoded challenge records come from
`unwrap_challenges` (`borderlands.challenges`, not among the sources at
hand); the repair loop reads only `id` and `total_value` of each record. -/

/-- One decoded challenge record as the repair loop sees it: `id` and
`total_value` as in the save block; `prev` stands for the remaining record
fields, which the loop never touches. -/
structure ChalRecord where
  id : Nat
  total_value : Nat
  prev : Nat
deriving DecidableEq

instance : Inhabited ChalRecord := ⟨⟨0, 0, 0⟩⟩

/-- Modelled from the spec: the caller-supplied challenge metadata keyed by
`id`; the stored number is the challenge's declared maximum
(`Challenge.get_max()` of `borderlands.challenges`). -/
def lookupC : List (Nat × Nat) → Nat → Option Nat
  | [], _ => none
  | (i, m) :: rest, j => if i = j then some m else lookupC rest j

/-- `BaseApp._fix_challenge_overflow`'s record loop (savefile.py lines
341-345): for each record whose `id` is in the challenge metadata and whose
`total_value` is at least 2000000000, the `total_value` becomes the
challenge's declared maximum plus one. -/
def fixRecord (chal : List (Nat × Nat)) (r : ChalRecord) : ChalRecord :=
  match lookupC chal r.id with
  | some m => if 2000000000 ≤ r.total_value then { r with total_value := m + 1 } else r
  | none => r

def fix_challenge_overflow (chal : List (Nat × Nat)) (records : List ChalRecord) :
    List ChalRecord :=
  records.map (fixRecord chal)

/-- C6 counterexample: a record with `total_value` at 2000000000 whose `id`
is not in the challenge metadata is left unchanged — the repair does not
replace every overflowing record, only those whose `id` the metadata knows. -/
theorem c6_counterexample :
    lookupC [(1, 1000)] 9 = none ∧
    2000000000 ≤ (2000000000 : Nat) ∧
    fix_challenge_overflow [(1, 1000)] [⟨9, 2000000000, 0⟩]
      = [⟨9, 2000000000, 0⟩] := by
  decide

/-- C6 (amended).  The challenge-overflow repair keeps the record count,
and pointwise: a record whose `id` is in the metadata and whose
`total_value` is at least 2000000000 gets `total_value` = declared max + 1
with everything else unchanged, and every other record — including
overflowing records with unknown `id` — is unchanged; the spec's S3
instance comes out as stated. -/
theorem c6_challenge_overflow_fix (chal : List (Nat × Nat)) (records : List ChalRecord) :
    (fix_challenge_overflow chal records).length = records.length ∧
    (∀ k, k < records.length →
      (∃ m, lookupC chal (records.getD k default).id = some m ∧
          2000000000 ≤ (records.getD k default).total_value ∧
          (fix_challenge_overflow chal records).getD k default
            = ⟨(records.getD k default).id, m + 1, (records.getD k default).prev⟩) ∨
      ((lookupC chal (records.getD k default).id = none ∨
          (records.getD k default).total_value < 2000000000) ∧
        (fix_challenge_overflow chal records).getD k default
          = records.getD k default)) ∧
    fix_challenge_overflow [(1, 1000), (3, 2000)]
        [⟨1, 2100000000, 0⟩, ⟨2, 5, 0⟩, ⟨3, 2000000000, 0⟩]
      = [⟨1, 1001, 0⟩, ⟨2, 5, 0⟩, ⟨3, 2001, 0⟩] := by
  refine ⟨by simp [fix_challenge_overflow], ?_, by decide⟩
  intro k hk
  have hmap : (fix_challenge_overflow chal records).getD k default
      = match lookupC chal (records.getD k default).id with
        | some m => if 2000000000 ≤ (records.getD k default).total_value
            then { records.getD k default with total_value := m + 1 }
            else records.getD k default
        | none => records.getD k default := by
    have hg : records.getD k default = records[k] := by
      rw [List.getD_eq_getElem?_getD, List.getElem?_eq_getElem hk]
      rfl
    unfold fix_challenge_overflow
    rw [hg, List.getD_eq_getElem?_getD, List.getElem?_map, List.getElem?_eq_getElem hk]
    rfl
  rw [hmap]
  cases hl : lookupC chal (records.getD k default).id with
  | none => exact Or.inr ⟨Or.inl rfl, rfl⟩
  | some m =>
    by_cases ht : 2000000000 ≤ (records.getD k default).total_value
    · refine Or.inl ⟨m, rfl, ht, ?_⟩
      show (if 2000000000 ≤ (records.getD k default).total_value
          then ({ records.getD k default with total_value := m + 1 } : ChalRecord)
          else records.getD k default) = _
      rw [if_pos ht]
    · refine Or.inr ⟨Or.inr (by omega), ?_⟩
      show (if 2000000000 ≤ (records.getD k default).total_value
          then ({ records.getD k default with total_value := m + 1 } : ChalRecord)
          else records.getD k default) = _
      rw [if_neg ht]

/-- Witness for C6 at a concrete input: one known overflowing record is
rewritten to max + 1. -/
theorem c6_challenge_overflow_fix_witness :
    (∃ m, lookupC [(5, 70)]
        (([⟨5, 2000000001, 9⟩] : List ChalRecord).getD 0 default).id = some m ∧
        2000000000 ≤ (([⟨5, 2000000001, 9⟩] : List ChalRecord).getD 0
          default).total_value ∧
        (fix_challenge_overflow [(5, 70)] [⟨5, 2000000001, 9⟩]).getD 0 default
          = ⟨(([⟨5, 2000000001, 9⟩] : List ChalRecord).getD 0 default).id, m + 1,
            (([⟨5, 2000000001, 9⟩] : List ChalRecord).getD 0 default).prev⟩) ∨
    ((lookupC [(5, 70)]
        (([⟨5, 2000000001, 9⟩] : List ChalRecord).getD 0 default).id = none ∨
      (([⟨5, 2000000001, 9⟩] : List ChalRecord).getD 0 default).total_value
        < 2000000000) ∧
      (fix_challenge_overflow [(5, 70)] [⟨5, 2000000001, 9⟩]).getD 0 default
        = ([⟨5, 2000000001, 9⟩] : List ChalRecord).getD 0 default) :=
  (c6_challenge_overflow_fix [(5, 70)] [⟨5, 2000000001, 9⟩]).2.1 0 (by decide)

/-! ### The edit pass (`BaseApp._set_money`, `BaseApp._unlock_features`,
`BaseApp._fix_challenge_overflow`, savefile.py lines 282-347, composed as
in `modify_save`). -/

/-- A value stored in the player message tree: either a byte string, or the
unserialized list of integers that `_set_money` writes back
(savefile.py line 311). -/
inductive Payload
  | bytes (b : List Nat)
  | ints (v : List Nat)
deriving DecidableEq

/-- The decoded player message as the edit pass sees it: field number to
the list of `[wire_type, value]` pairs.  Python dict assignment keeps the
position of an existing key and appends a new one. -/
abbrev Player := List (Nat × List (Nat × Payload))

def lookupP : Player → Nat → Option (List (Nat × Payload))
  | [], _ => none
  | (f, v) :: rest, g => if f = g then some v else lookupP rest g

def setP : Player → Nat → List (Nat × Payload) → Player
  | [], f, v => [(f, v)]
  | (g, w) :: rest, f, v => if g = f then (f, v) :: rest else (g, w) :: setP rest f v

/-- The edit configuration read by the three passes
(`self.config`, config.py). -/
structure Cfg where
  money : Option Nat
  eridium : Option Nat
  seraph : Option Nat
  torgue : Option Nat
  unlock_slaughterdome : Bool
  fix_challenge_overflow : Bool
deriving DecidableEq

/-- Modelled from the spec: `read_protobuf_value(b, 0)`
(`borderlands.protobuf`, not among the sources at hand) reads one
little-endian base-128 varint; a truncated varint is a read error. -/
def readVarint : List Nat → Option (Nat × List Nat)
  | [] => none
  | b :: rest =>
    if b < 128 then some (b, rest)
    else
      match readVarint rest with
      | some (v, r) => some ((b - 128) + 128 * v, r)
      | none => none

/-- The `while b.tell() < len(raw)` loop of `_set_money` (savefile.py
lines 296-298): read varints until the buffer is exhausted.  The fuel is
the buffer length; `readVarint` consumes at least one byte per value. -/
def readVarintsAux : Nat → List Nat → Option (List Nat)
  | _, [] => some []
  | 0, _ :: _ => none
  | fuel + 1, b :: rest0 =>
    match readVarint (b :: rest0) with
    | none => none
    | some (v, rest) =>
      match readVarintsAux fuel rest with
      | none => none
      | some vs => some (v :: vs)

def readVarints (l : List Nat) : Option (List Nat) :=
  readVarintsAux l.length l

/-- `values[i] = c` for a configured currency, `values` left alone for an
unconfigured one; a Python `IndexError` yields `none`. -/
def setIdxOpt (values : List Nat) (i : Nat) : Option Nat → Option (List Nat)
  | none => some values
  | some c => if i < values.length then some (values.set i c) else none

/-- `BaseApp._set_money` (savefile.py lines 282-311).  With no currency
configured it returns the player untouched; otherwise it parses the
varints of `player[6][0][1]`, overwrites positions 0/1/2/4, and stores the
*unserialized* list back as `player[6][0] = [0, values]`.  A missing field
6 (KeyError), an empty pair list (IndexError), a non-byte-string value
(the `io.BytesIO(raw)` TypeError), a truncated varint or an out-of-range
position yields `none`. -/
def set_money (cfg : Cfg) (player : Player) : Option Player :=
  if cfg.money = none ∧ cfg.eridium = none ∧ cfg.seraph = none ∧ cfg.torgue = none then
    some player
  else
    match lookupP player 6 with
    | none => none
    | some [] => none
    | some ((_, Payload.ints _) :: _) => none
    | some ((_, Payload.bytes raw) :: rest) =>
      match readVarints raw with
      | none => none
      | some values =>
        match setIdxOpt values 0 cfg.money with
        | none => none
        | some v1 =>
          match setIdxOpt v1 1 cfg.eridium with
          | none => none
          | some v2 =>
            match setIdxOpt v2 2 cfg.seraph with
            | none => none
            | some v3 =>
              match setIdxOpt v3 4 cfg.torgue with
              | none => none
              | some v4 => some (setP player 6 ((0, Payload.ints v4) :: rest))

/-- `unlocked = player[23][0][1] if 23 in player else b''` (savefile.py
lines 320-323).  A stored value that is not a byte string is outside the
modelled domain (the editor itself only ever writes byte strings here). -/
def getFlag (player : Player) (f : Nat) : Option (List Nat) :=
  match lookupP player f with
  | none => some []
  | some [] => none
  | some ((_, Payload.bytes b) :: _) => some b
  | some ((_, Payload.ints _) :: _) => none

/-- `BaseApp._unlock_features` (savefile.py lines 313-331): with the
slaughterdome unlock configured, append `0x01` to the unlock and
notification byte strings when absent and store them back as singleton
`[[2, bytes]]` lists. -/
def unlock_features (cfg : Cfg) (player : Player) : Option Player :=
  if cfg.unlock_slaughterdome = false then some player
  else
    match getFlag player 23 with
    | none => none
    | some unlocked =>
      match getFlag player 24 with
      | none => none
      | some notifications =>
        some (setP
          (setP player 23
            [(2, Payload.bytes (if 1 ∈ unlocked then unlocked else unlocked ++ [1]))])
          24
          [(2, Payload.bytes
            (if 1 ∈ notifications then notifications else notifications ++ [1]))])

def packU16 (e : Endian) (v : Nat) : List Nat :=
  match e with
  | .little => leBytes v 2
  | .big => (leBytes v 2).reverse

/-- Modelled from the spec (§4.F): `wrap_challenges` emits
`u16 count, count × u16 id, u16 count, count × (u16 id, u32 total_value,
u32 previous_value)` in the configured endianness, dropping the `_name`
augmentation. -/
def wrap_challenges (e : Endian) (ids : List Nat) (records : List ChalRecord) :
    List Nat :=
  packU16 e ids.length ++ (ids.map (packU16 e)).flatten
    ++ packU16 e records.length
    ++ (records.map fun r =>
        packU16 e r.id ++ packU32 e r.total_value ++ packU32 e r.prev).flatten

def readU16 (e : Endian) : List Nat → Option (Nat × List Nat)
  | b0 :: b1 :: rest =>
    some ((match e with | .little => b0 + 256 * b1 | .big => b1 + 256 * b0), rest)
  | _ => none

def readU32At (e : Endian) : List Nat → Option (Nat × List Nat)
  | b0 :: b1 :: b2 :: b3 :: rest =>
    some ((match e with
      | .little => leVal [b0, b1, b2, b3]
      | .big => leVal [b3, b2, b1, b0]), rest)
  | _ => none

def readIds (e : Endian) : Nat → List Nat → Option (List Nat × List Nat)
  | 0, l => some ([], l)
  | n + 1, l =>
    match readU16 e l with
    | none => none
    | some (v, rest) =>
      match readIds e n rest with
      | none => none
      | some (vs, rest2) => some (v :: vs, rest2)

def readRecords (e : Endian) : Nat → List Nat → Option (List ChalRecord × List Nat)
  | 0, l => some ([], l)
  | n + 1, l =>
    match readU16 e l with
    | none => none
    | some (i, r1) =>
      match readU32At e r1 with
      | none => none
      | some (t, r2) =>
        match readU32At e r2 with
        | none => none
        | some (p, r3) =>
          match readRecords e n r3 with
          | none => none
          | some (rs, rest) => some (⟨i, t, p⟩ :: rs, rest)

/-- Modelled from the spec (§4.F): `unwrap_challenges` parses the
dictionary slice and the records; trailing bytes are ignored. -/
def unwrap_challenges (e : Endian) (data : List Nat) :
    Option (List Nat × List ChalRecord) :=
  match readU16 e data with
  | none => none
  | some (cnt, r1) =>
    match readIds e cnt r1 with
    | none => none
    | some (ids, r2) =>
      match readU16 e r2 with
      | none => none
      | some (cnt2, r3) =>
        match readRecords e cnt2 r3 with
        | none => none
        | some (records, _) => some (ids, records)

/-- `BaseApp._fix_challenge_overflow` (savefile.py lines 333-347) as a
whole: decode `player[15][0][1]`, repair the records, re-encode in place.
A missing field 15 (KeyError), an empty pair list (IndexError), a
non-byte-string value or a malformed block yields `none`. -/
def fix_challenges_pass (cfg : Cfg) (e : Endian) (chal : List (Nat × Nat))
    (player : Player) : Option Player :=
  if cfg.fix_challenge_overflow = false then some player
  else
    match lookupP player 15 with
    | none => none
    | some [] => none
    | some ((_, Payload.ints _) :: _) => none
    | some ((wt, Payload.bytes raw) :: rest) =>
      match unwrap_challenges e raw with
      | none => none
      | some (ids, records) =>
        some (setP player 15
          ((wt, Payload.bytes
            (wrap_challenges e ids (fix_challenge_overflow chal records))) :: rest))

/-- The edit pass of `modify_save` (savefile.py lines 362-366) restricted
to the three edits the claim names, in program order. -/
def apply_edits (cfg : Cfg) (e : Endian) (chal : List (Nat × Nat))
    (player : Player) : Option Player :=
  (set_money cfg player).bind fun p1 =>
    (unlock_features cfg p1).bind fun p2 =>
      fix_challenges_pass cfg e chal p2

/-- The in-range condition on the decoded challenge block of field 15 that
re-encoding relies on: every id and value fits its fixed-width slot. -/
def chalDataOk (e : Endian) (player : Player) : Bool :=
  match lookupP player 15 with
  | some ((_, Payload.bytes raw) :: _) =>
    match unwrap_challenges e raw with
    | some (ids, records) =>
      ids.length < 2 ^ 16 && records.length < 2 ^ 16 &&
        ids.all (fun i => i < 2 ^ 16) &&
        records.all fun r =>
          r.id < 2 ^ 16 && r.total_value < 2 ^ 32 && r.prev < 2 ^ 32
    | none => true
  | _ => true

theorem lookupP_setP_self : ∀ (p : Player) (f : Nat) (v : List (Nat × Payload)),
    lookupP (setP p f v) f = some v := by
  intro p
  induction p with
  | nil => intro f v; simp [setP, lookupP]
  | cons gw rest ih =>
    intro f v
    rcases gw with ⟨g, w⟩
    rw [setP]
    by_cases hg : g = f
    · rw [if_pos hg, lookupP, if_pos rfl]
    · rw [if_neg hg, lookupP, if_neg hg, ih]

theorem lookupP_setP_ne : ∀ (p : Player) (f g : Nat) (v : List (Nat × Payload)),
    g ≠ f → lookupP (setP p f v) g = lookupP p g := by
  intro p
  induction p with
  | nil =>
    intro f g v hne
    rw [setP, lookupP, lookupP, if_neg (fun h => hne h.symm)]
    rfl
  | cons hw rest ih =>
    intro f g v hne
    rcases hw with ⟨h, w⟩
    rw [setP]
    by_cases hh : h = f
    · rw [if_pos hh, lookupP, lookupP, if_neg (by omega), if_neg (by omega)]
    · rw [if_neg hh, lookupP, lookupP]
      by_cases hg : h = g
      · rw [if_pos hg, if_pos hg]
      · rw [if_neg hg, if_neg hg, ih _ _ _ hne]

theorem setP_same : ∀ (p : Player) (f : Nat) (v : List (Nat × Payload)),
    lookupP p f = some v → setP p f v = p := by
  intro p
  induction p with
  | nil => intro f v h; simp [lookupP] at h
  | cons gw rest ih =>
    intro f v h
    rcases gw with ⟨g, w⟩
    rw [lookupP] at h
    rw [setP]
    by_cases hg : g = f
    · rw [if_pos hg] at h
      injection h with h
      rw [if_pos hg, hg, h]
    · rw [if_neg hg] at h
      rw [if_neg hg, ih _ _ h]

theorem set_money_noop (cfg : Cfg) (hm : cfg.money = none) (he : cfg.eridium = none)
    (hs : cfg.seraph = none) (ht : cfg.torgue = none) (p : Player) :
    set_money cfg p = some p := by
  rw [set_money, if_pos ⟨hm, he, hs, ht⟩]

theorem mem_one_flag (u : List Nat) : 1 ∈ (if 1 ∈ u then u else u ++ [1]) := by
  by_cases h : 1 ∈ u
  · rwa [if_pos h]
  · rw [if_neg h]
    simp

theorem if_one_mem (u : List Nat) (h : 1 ∈ u) : (if 1 ∈ u then u else u ++ [1]) = u :=
  if_pos h

theorem lookupC_mem : ∀ (chal : List (Nat × Nat)) (i m : Nat),
    lookupC chal i = some m → (i, m) ∈ chal := by
  intro chal
  induction chal with
  | nil => intro i m h; simp [lookupC] at h
  | cons q rest ih =>
    intro i m h
    rcases q with ⟨j, n⟩
    rw [lookupC] at h
    by_cases hj : j = i
    · rw [if_pos hj] at h
      injection h with h
      subst hj h
      simp
    · rw [if_neg hj] at h
      exact List.mem_cons_of_mem _ (ih i m h)

theorem fixRecord_idem (chal : List (Nat × Nat)) (r : ChalRecord)
    (hmax : ∀ q ∈ chal, q.2 + 1 < 2000000000) :
    fixRecord chal (fixRecord chal r) = fixRecord chal r := by
  cases hl : lookupC chal r.id with
  | none =>
    have h1 : fixRecord chal r = r := by
      rw [fixRecord, hl]
    rw [h1, h1]
  | some m =>
    by_cases ht : 2000000000 ≤ r.total_value
    · have h1 : fixRecord chal r = { r with total_value := m + 1 } := by
        rw [fixRecord, hl]
        exact if_pos ht
      have hm : m + 1 < 2000000000 := hmax (r.id, m) (lookupC_mem chal r.id m hl)
      rw [h1]
      show ((match lookupC chal r.id with
        | some m2 => if 2000000000 ≤ m + 1
            then { id := r.id, total_value := m2 + 1, prev := r.prev }
            else { r with total_value := m + 1 }
        | none => { r with total_value := m + 1 }) : ChalRecord) = _
      rw [hl]
      exact if_neg (by omega)
    · have h1 : fixRecord chal r = r := by
        rw [fixRecord, hl]
        exact if_neg ht
      rw [h1, h1]

theorem fix_challenge_overflow_idem (chal : List (Nat × Nat))
    (records : List ChalRecord) (hmax : ∀ q ∈ chal, q.2 + 1 < 2000000000) :
    fix_challenge_overflow chal (fix_challenge_overflow chal records)
      = fix_challenge_overflow chal records := by
  rw [fix_challenge_overflow, fix_challenge_overflow, List.map_map]
  exact List.map_congr_left fun r _ => fixRecord_idem chal r hmax

theorem fixRecord_range (chal : List (Nat × Nat)) (r : ChalRecord)
    (hmax : ∀ q ∈ chal, q.2 + 1 < 2000000000)
    (h : r.id < 2 ^ 16 ∧ r.total_value < 2 ^ 32 ∧ r.prev < 2 ^ 32) :
    (fixRecord chal r).id < 2 ^ 16 ∧ (fixRecord chal r).total_value < 2 ^ 32 ∧
      (fixRecord chal r).prev < 2 ^ 32 := by
  cases hl : lookupC chal r.id with
  | none =>
    have h1 : fixRecord chal r = r := by
      rw [fixRecord, hl]
    rw [h1]
    exact h
  | some m =>
    by_cases ht : 2000000000 ≤ r.total_value
    · have h1 : fixRecord chal r = { r with total_value := m + 1 } := by
        rw [fixRecord, hl]
        exact if_pos ht
      have hm : m + 1 < 2000000000 := hmax (r.id, m) (lookupC_mem chal r.id m hl)
      rw [h1]
      exact ⟨h.1, show m + 1 < 2 ^ 32 by omega, h.2.2⟩
    · have h1 : fixRecord chal r = r := by
        rw [fixRecord, hl]
        exact if_neg ht
      rw [h1]
      exact h

theorem readU16_packU16 (e : Endian) (v : Nat) (rest : List Nat) (hv : v < 2 ^ 16) :
    readU16 e (packU16 e v ++ rest) = some (v, rest) := by
  cases e <;> simp [packU16, leBytes, readU16] <;> omega

theorem readU32At_packU32 (e : Endian) (v : Nat) (rest : List Nat) (hv : v < 2 ^ 32) :
    readU32At e (packU32 e v ++ rest) = some (v, rest) := by
  cases e <;> simp [packU32, leBytes, readU32At, leVal] <;> omega

theorem readIds_wrap (e : Endian) : ∀ (ids : List Nat) (rest : List Nat),
    (∀ i ∈ ids, i < 2 ^ 16) →
    readIds e ids.length ((ids.map (packU16 e)).flatten ++ rest) = some (ids, rest) := by
  intro ids
  induction ids with
  | nil => intro rest _; simp [readIds]
  | cons i ids ih =>
    intro rest hall
    have h1 : i < 2 ^ 16 := hall i (by simp)
    have h2 := ih rest fun x hx => hall x (by simp [hx])
    simp only [List.length_cons, List.map_cons, List.flatten_cons, List.append_assoc,
      readIds, readU16_packU16, h1, h2]

theorem readRecords_wrap (e : Endian) : ∀ (records : List ChalRecord) (rest : List Nat),
    (∀ r ∈ records, r.id < 2 ^ 16 ∧ r.total_value < 2 ^ 32 ∧ r.prev < 2 ^ 32) →
    readRecords e records.length
        ((records.map fun r =>
          packU16 e r.id ++ packU32 e r.total_value ++ packU32 e r.prev).flatten ++ rest)
      = some (records, rest) := by
  intro records
  induction records with
  | nil => intro rest _; simp [readRecords]
  | cons r records ih =>
    intro rest hall
    obtain ⟨h1, h2, h3⟩ := hall r (by simp)
    have h4 := ih rest fun x hx => hall x (by simp [hx])
    simp only [List.append_assoc] at h4
    simp only [List.length_cons, List.map_cons, List.flatten_cons, List.append_assoc,
      readRecords, readU16_packU16, readU32At_packU32, h1, h2, h3, h4]

/-- Decode after encode is the identity on in-range challenge blocks
(the spec's §4.F invariant). -/
theorem unwrap_wrap_challenges (e : Endian) (ids : List Nat) (records : List ChalRecord)
    (hidc : ids.length < 2 ^ 16) (hrc : records.length < 2 ^ 16)
    (hid : ∀ i ∈ ids, i < 2 ^ 16)
    (hrec : ∀ r ∈ records, r.id < 2 ^ 16 ∧ r.total_value < 2 ^ 32 ∧ r.prev < 2 ^ 32) :
    unwrap_challenges e (wrap_challenges e ids records) = some (ids, records) := by
  have hrec2 := readRecords_wrap e records [] hrec
  rw [List.append_nil] at hrec2
  simp only [List.append_assoc] at hrec2
  have hids := readIds_wrap e ids
    (packU16 e records.length ++ (records.map fun r =>
      packU16 e r.id ++ packU32 e r.total_value ++ packU32 e r.prev).flatten) hid
  simp only [List.append_assoc] at hids
  simp only [unwrap_challenges, wrap_challenges, List.append_assoc,
    readU16_packU16, hidc, hrc, hids, hrec2]

theorem unlock_preserves_15 (cfg : Cfg) (p q : Player)
    (hu : unlock_features cfg p = some q) : lookupP q 15 = lookupP p 15 := by
  by_cases hc : cfg.unlock_slaughterdome = false
  · rw [unlock_features, if_pos hc] at hu
    injection hu with hu
    rw [hu]
  · rw [unlock_features, if_neg hc] at hu
    cases hf23 : getFlag p 23 with
    | none =>
      rw [hf23] at hu
      exact Option.noConfusion hu
    | some u =>
      rw [hf23] at hu
      have hu2 : (match getFlag p 24 with
        | none => none
        | some notifications =>
          some (setP
            (setP p 23 [(2, Payload.bytes (if 1 ∈ u then u else u ++ [1]))]) 24
            [(2, Payload.bytes
              (if 1 ∈ notifications then notifications else notifications ++ [1]))]))
          = some q := hu
      cases hf24 : getFlag p 24 with
      | none =>
        rw [hf24] at hu2
        exact Option.noConfusion hu2
      | some n =>
        rw [hf24] at hu2
        have hq : setP (setP p 23 [(2, Payload.bytes (if 1 ∈ u then u else u ++ [1]))])
            24 [(2, Payload.bytes (if 1 ∈ n then n else n ++ [1]))] = q := by
          injection hu2
        rw [← hq, lookupP_setP_ne _ _ _ _ (by omega), lookupP_setP_ne _ _ _ _ (by omega)]

theorem unlock_features_stable (cfg : Cfg) (p q r : Player)
    (hu : unlock_features cfg p = some q)
    (h23 : lookupP r 23 = lookupP q 23) (h24 : lookupP r 24 = lookupP q 24) :
    unlock_features cfg r = some r := by
  by_cases hc : cfg.unlock_slaughterdome = false
  · rw [unlock_features, if_pos hc]
  · rw [unlock_features, if_neg hc] at hu
    cases hf23 : getFlag p 23 with
    | none =>
      rw [hf23] at hu
      exact Option.noConfusion hu
    | some u =>
      rw [hf23] at hu
      have hu2 : (match getFlag p 24 with
        | none => none
        | some notifications =>
          some (setP
            (setP p 23 [(2, Payload.bytes (if 1 ∈ u then u else u ++ [1]))]) 24
            [(2, Payload.bytes
              (if 1 ∈ notifications then notifications else notifications ++ [1]))]))
          = some q := hu
      cases hf24 : getFlag p 24 with
      | none =>
        rw [hf24] at hu2
        exact Option.noConfusion hu2
      | some n =>
        rw [hf24] at hu2
        have hq : setP (setP p 23 [(2, Payload.bytes (if 1 ∈ u then u else u ++ [1]))])
            24 [(2, Payload.bytes (if 1 ∈ n then n else n ++ [1]))] = q := by
          injection hu2
        obtain ⟨U, hUmem, hUeq⟩ : ∃ U, 1 ∈ U ∧ (if 1 ∈ u then u else u ++ [1]) = U :=
          ⟨_, mem_one_flag u, rfl⟩
        obtain ⟨N, hNmem, hNeq⟩ : ∃ N, 1 ∈ N ∧ (if 1 ∈ n then n else n ++ [1]) = N :=
          ⟨_, mem_one_flag n, rfl⟩
        rw [hUeq, hNeq] at hq
        have hq23 : lookupP q 23 = some [(2, Payload.bytes U)] := by
          rw [← hq, lookupP_setP_ne _ _ _ _ (by omega), lookupP_setP_self]
        have hq24 : lookupP q 24 = some [(2, Payload.bytes N)] := by
          rw [← hq, lookupP_setP_self]
        have hr23 : getFlag r 23 = some U := by
          rw [getFlag, h23, hq23]
        have hr24 : getFlag r 24 = some N := by
          rw [getFlag, h24, hq24]
        rw [unlock_features, if_neg hc, hr23]
        show (match getFlag r 24 with
          | none => none
          | some notifications =>
            some (setP
              (setP r 23 [(2, Payload.bytes (if 1 ∈ U then U else U ++ [1]))]) 24
              [(2, Payload.bytes
                (if 1 ∈ notifications then notifications else notifications ++ [1]))]))
            = some r
        rw [hr24]
        show some (setP
            (setP r 23 [(2, Payload.bytes (if 1 ∈ U then U else U ++ [1]))]) 24
            [(2, Payload.bytes (if 1 ∈ N then N else N ++ [1]))]) = some r
        rw [if_pos hUmem, if_pos hNmem, setP_same r 23 _ (h23.trans hq23),
          setP_same r 24 _ (h24.trans hq24)]

theorem chalDataOk_congr (e : Endian) (p q : Player)
    (h : lookupP q 15 = lookupP p 15) : chalDataOk e q = chalDataOk e p := by
  rw [chalDataOk, chalDataOk, h]

theorem fix_pass_preserves (cfg : Cfg) (e : Endian) (chal : List (Nat × Nat))
    (p r : Player) (hf : fix_challenges_pass cfg e chal p = some r) :
    lookupP r 23 = lookupP p 23 ∧ lookupP r 24 = lookupP p 24 := by
  by_cases hc : cfg.fix_challenge_overflow = false
  · rw [fix_challenges_pass, if_pos hc] at hf
    injection hf with hf
    rw [hf]
    exact ⟨rfl, rfl⟩
  · rw [fix_challenges_pass, if_neg hc] at hf
    cases hl : lookupP p 15 with
    | none =>
      rw [hl] at hf
      exact Option.noConfusion hf
    | some entry =>
      rw [hl] at hf
      cases entry with
      | nil => exact Option.noConfusion hf
      | cons pr rest =>
        rcases pr with ⟨wt, pay⟩
        cases pay with
        | ints v => exact Option.noConfusion hf
        | bytes raw =>
          have hf2 : (match unwrap_challenges e raw with
            | none => none
            | some (ids, records) => some (setP p 15 ((wt, Payload.bytes
                (wrap_challenges e ids (fix_challenge_overflow chal records))) :: rest)))
              = some r := hf
          cases hw : unwrap_challenges e raw with
          | none =>
            rw [hw] at hf2
            exact Option.noConfusion hf2
          | some pr2 =>
            rcases pr2 with ⟨ids, records⟩
            rw [hw] at hf2
            have hr : setP p 15 ((wt, Payload.bytes
                (wrap_challenges e ids (fix_challenge_overflow chal records))) :: rest)
                = r := by
              injection hf2
            constructor <;> rw [← hr, lookupP_setP_ne _ _ _ _ (by omega)]

theorem fix_pass_stable (cfg : Cfg) (e : Endian) (chal : List (Nat × Nat))
    (p r : Player)
    (hok : chalDataOk e p = true)
    (hmax : chal.all (fun q => q.2 + 1 < 2000000000) = true)
    (hf : fix_challenges_pass cfg e chal p = some r) :
    fix_challenges_pass cfg e chal r = some r := by
  have hmaxP : ∀ q ∈ chal, q.2 + 1 < 2000000000 := by
    simpa using hmax
  by_cases hc : cfg.fix_challenge_overflow = false
  · rw [fix_challenges_pass, if_pos hc] at hf
    injection hf with hf
    rw [fix_challenges_pass, if_pos hc]
  · rw [fix_challenges_pass, if_neg hc] at hf
    cases hl : lookupP p 15 with
    | none =>
      rw [hl] at hf
      exact Option.noConfusion hf
    | some entry =>
      rw [hl] at hf
      cases entry with
      | nil => exact Option.noConfusion hf
      | cons pr rest =>
        rcases pr with ⟨wt, pay⟩
        cases pay with
        | ints v => exact Option.noConfusion hf
        | bytes raw =>
          have hf2 : (match unwrap_challenges e raw with
            | none => none
            | some (ids, records) => some (setP p 15 ((wt, Payload.bytes
                (wrap_challenges e ids (fix_challenge_overflow chal records))) :: rest)))
              = some r := hf
          cases hw : unwrap_challenges e raw with
          | none =>
            rw [hw] at hf2
            exact Option.noConfusion hf2
          | some pr2 =>
            rcases pr2 with ⟨ids, records⟩
            rw [hw] at hf2
            have hr : setP p 15 ((wt, Payload.bytes
                (wrap_challenges e ids (fix_challenge_overflow chal records))) :: rest)
                = r := by
              injection hf2
            rw [chalDataOk, hl] at hok
            have hok2 : (match unwrap_challenges e raw with
              | some (ids, records) =>
                ids.length < 2 ^ 16 && records.length < 2 ^ 16 &&
                  ids.all (fun i => i < 2 ^ 16) &&
                  records.all fun x =>
                    x.id < 2 ^ 16 && x.total_value < 2 ^ 32 && x.prev < 2 ^ 32
              | none => true) = true := hok
            rw [hw] at hok2
            have hok3 : (ids.length < 2 ^ 16 && records.length < 2 ^ 16 &&
                ids.all (fun i => i < 2 ^ 16) &&
                records.all fun x =>
                  x.id < 2 ^ 16 && x.total_value < 2 ^ 32 && x.prev < 2 ^ 32) = true :=
              hok2
            simp only [Bool.and_eq_true, List.all_eq_true, decide_eq_true_eq] at hok3
            obtain ⟨⟨⟨hidc, hrc⟩, hid⟩, hrec⟩ := hok3
            have hfixlen : (fix_challenge_overflow chal records).length
                = records.length := by
              rw [fix_challenge_overflow, List.length_map]
            have hfixrec : ∀ x ∈ fix_challenge_overflow chal records,
                x.id < 2 ^ 16 ∧ x.total_value < 2 ^ 32 ∧ x.prev < 2 ^ 32 := by
              intro x hx
              rw [fix_challenge_overflow] at hx
              rcases List.mem_map.mp hx with ⟨y, hy, rfl⟩
              exact fixRecord_range chal y hmaxP ⟨(hrec y hy).1.1, (hrec y hy).1.2,
                (hrec y hy).2⟩
            have hrt : unwrap_challenges e
                (wrap_challenges e ids (fix_challenge_overflow chal records))
                = some (ids, fix_challenge_overflow chal records) :=
              unwrap_wrap_challenges e ids _ hidc (by rw [hfixlen]; exact hrc) hid hfixrec
            have hr15 : lookupP r 15 = some ((wt, Payload.bytes
                (wrap_challenges e ids (fix_challenge_overflow chal records))) :: rest) := by
              rw [← hr, lookupP_setP_self]
            rw [fix_challenges_pass, if_neg hc, hr15]
            show (match unwrap_challenges e
                (wrap_challenges e ids (fix_challenge_overflow chal records)) with
              | none => none
              | some (ids2, records2) => some (setP r 15 ((wt, Payload.bytes
                  (wrap_challenges e ids2 (fix_challenge_overflow chal records2)))
                  :: rest))) = some r
            rw [hrt]
            show some (setP r 15 ((wt, Payload.bytes (wrap_challenges e ids
                (fix_challenge_overflow chal (fix_challenge_overflow chal records))))
                :: rest)) = some r
            rw [fix_challenge_overflow_idem chal records hmaxP, setP_same r 15 _ hr15]

/-- C7 counterexample: with a money edit configured, applying the edit
pass once succeeds, but applying it twice fails — the first pass stores
the *unserialized* value list at `player[6][0]` (savefile.py line 311), so
the second pass's `io.BytesIO(raw)` raises `TypeError` — hence twice is
not equal to once. -/
theorem c7_counterexample :
    ((apply_edits ⟨some 99, none, none, none, false, false⟩ .big []
        [(6, [(2, Payload.bytes [5])])]).bind
      (apply_edits ⟨some 99, none, none, none, false, false⟩ .big [])
      ≠ apply_edits ⟨some 99, none, none, none, false, false⟩ .big []
        [(6, [(2, Payload.bytes [5])])]) ∧
    (apply_edits ⟨some 99, none, none, none, false, false⟩ .big []
        [(6, [(2, Payload.bytes [5])])]).isSome := by
  decide

/-- C7 (amended).  The edit pass (money, unlock, challenge-overflow fix in
program order) is idempotent when no currency edit is configured, every
challenge maximum is below the overflow threshold, and the decoded
challenge block of field 15 is in range; with a currency edit the second
application fails on the unserialized list the first one stored. -/
theorem c7_edit_idempotence (cfg : Cfg) (e : Endian) (chal : List (Nat × Nat))
    (player : Player)
    (hm : cfg.money = none) (he : cfg.eridium = none) (hs : cfg.seraph = none)
    (ht2 : cfg.torgue = none)
    (hmax : chal.all (fun q => q.2 + 1 < 2000000000) = true)
    (hok : chalDataOk e player = true) :
    (apply_edits cfg e chal player).bind (apply_edits cfg e chal)
      = apply_edits cfg e chal player := by
  have hsm : ∀ p : Player, set_money cfg p = some p := fun p =>
    set_money_noop cfg hm he hs ht2 p
  cases hu : unlock_features cfg player with
  | none =>
    have honce : apply_edits cfg e chal player = none := by
      rw [apply_edits, hsm, Option.some_bind, hu]
      rfl
    rw [honce]
    rfl
  | some p2 =>
    cases hf : fix_challenges_pass cfg e chal p2 with
    | none =>
      have honce : apply_edits cfg e chal player = none := by
        rw [apply_edits, hsm, Option.some_bind, hu, Option.some_bind, hf]
      rw [honce]
      rfl
    | some r =>
      have honce : apply_edits cfg e chal player = some r := by
        rw [apply_edits, hsm, Option.some_bind, hu, Option.some_bind, hf]
      rw [honce, Option.some_bind]
      have hq15 : lookupP p2 15 = lookupP player 15 :=
        unlock_preserves_15 cfg player p2 hu
      have hok2 : chalDataOk e p2 = true := by
        rw [chalDataOk_congr e player p2 hq15]
        exact hok
      have hfr : fix_challenges_pass cfg e chal r = some r :=
        fix_pass_stable cfg e chal p2 r hok2 hmax hf
      have h2324 := fix_pass_preserves cfg e chal p2 r hf
      have hur : unlock_features cfg r = some r :=
        unlock_features_stable cfg player p2 r hu h2324.1 h2324.2
      rw [apply_edits, hsm, Option.some_bind, hur, Option.some_bind, hfr]

/-- Witness for C7 at a concrete input: unlock and overflow fix enabled,
no currency edits, one overflowing record with known id. -/
theorem c7_edit_idempotence_witness :
    (apply_edits ⟨none, none, none, none, true, true⟩ .little [(7, 10)]
        [(15, [(2, Payload.bytes
          [1, 0, 7, 0, 1, 0, 7, 0, 5, 148, 53, 119, 1, 0, 0, 0])])]).bind
      (apply_edits ⟨none, none, none, none, true, true⟩ .little [(7, 10)])
      = apply_edits ⟨none, none, none, none, true, true⟩ .little [(7, 10)]
        [(15, [(2, Payload.bytes
          [1, 0, 7, 0, 1, 0, 7, 0, 5, 148, 53, 119, 1, 0, 0, 0])])] :=
  c7_edit_idempotence ⟨none, none, none, none, true, true⟩ .little [(7, 10)]
    [(15, [(2, Payload.bytes [1, 0, 7, 0, 1, 0, 7, 0, 5, 148, 53, 119, 1, 0, 0, 0])])]
    (by decide) (by decide) (by decide) (by decide) (by decide) (by decide)
